import Mathlib

/-!
# Verification of the counterfactual portfolio calculation core

Shallow embedding of `src/utils/stockApi.ts` and `src/utils/calculations.ts`
(price lookup primitives, split adjustment, and the three calculation entry
points `calculatePortfolioTimeSeries`, `calculateStockBreakdown`,
`calculateSummary`).

Modelling conventions:
* JavaScript numbers are modelled as exact rationals (`ℚ`); the claims under
  scrutiny concern the algebra of the algorithms, not float rounding.
* ISO `YYYY-MM-DD` date strings are modelled as naturals (e.g. `20230102`
  for `"2023-01-02"`).  For the fixed-width ISO format the code uses, both
  JavaScript string comparison (used by `getPriceOnOrBefore` and the trade
  sort) and `Date`-object comparison (used by `findPriceOnDate`) agree with
  this numeric order.
* JavaScript `Map`s and plain string-keyed objects are modelled as
  insertion-ordered association lists (`JsMap`): `set` updates an existing
  key in place and appends new keys at the end, and iteration
  (`Object.entries`, `for ... of map`) follows list order, exactly the
  JS insertion-order semantics for non-index keys.
* `x ?? y` on a possibly-null number is `Option.getD`; a JS truthiness test
  `if (x)` on a `number | null` is modelled by testing both `none` and `0`.
* JS `Array.prototype.sort` with the comparators used here (all derived from
  a total preorder) is a stable sort; it is modelled by `List.insertionSort`,
  which is also stable, hence produces the identical list.
* `while` loops over indices are modelled by structural recursion; the
  binary-search loop carries explicit fuel (`prices.length + 1` iterations
  always suffice, since each iteration shrinks `right + 1 - left`).
-/

namespace Cf


/-! ## Insertion-ordered association maps (JS `Map` / string-keyed object) -/

/-- A JS `Map` (or plain object used as a dictionary): a list of key/value
pairs in insertion order. -/
abbrev JsMap (κ α : Type) := List (κ × α)

/-- `m.get(k)` / `obj[k]`: value of the first (and, for maps built by `set`,
only) binding of `k`. -/
def mapGet? {κ α : Type} [DecidableEq κ] : JsMap κ α → κ → Option α
  | [], _ => none
  | (k', v) :: rest, k => if k' = k then some v else mapGet? rest k

/-- `m.set(k, v)` / `obj[k] = v`: update an existing binding in place,
otherwise append a new one at the end (JS insertion-order semantics). -/
def mapSet {κ α : Type} [DecidableEq κ] : JsMap κ α → κ → α → JsMap κ α
  | [], k, v => [(k, v)]
  | (k', v') :: rest, k, v =>
    if k' = k then (k, v) :: rest else (k', v') :: mapSet rest k v

/-! ## Data model (`src/types`) -/

/-- `StockPrice`: one ticker's observation for one day. -/
structure StockPrice where
  date : ℕ
  price : ℚ
  high : Option ℚ := none
deriving Repr, DecidableEq

instance : Inhabited StockPrice := ⟨⟨0, 0, none⟩⟩

/-- `StockSplit`: a corporate split event. -/
structure StockSplit where
  date : ℕ
  ticker : String := ""
  splitFactor : ℚ
deriving Repr, DecidableEq

/-- `TradeType` = `'buy' | 'sell'`. -/
inductive TradeType where
  | buy
  | sell
deriving Repr, DecidableEq

/-- `Trade`: a single executed transaction (`id` is irrelevant to the
calculations and omitted). -/
structure Trade where
  ticker : String
  date : ℕ
  shares : ℚ
  price : Option ℚ := none
  type : TradeType
deriving Repr, DecidableEq

/-- `CashFlowType` = `'deposit' | 'dividend' | 'capgain' | 'interest'`. -/
inductive CashFlowType where
  | deposit
  | dividend
  | capgain
  | interest
deriving Repr, DecidableEq

/-- `CashFlow`: a dated movement of cash (`id` omitted, `ticker` kept). -/
structure CashFlow where
  date : ℕ
  amount : ℚ
  type : CashFlowType
  ticker : Option String := none
deriving Repr, DecidableEq

/-- `PortfolioDataPoint`: one emitted day of the time series. -/
structure PortfolioDataPoint where
  date : ℕ
  portfolioValue : ℚ
  counterfactualValue : ℚ
  costBasis : ℚ
  portfolioReturn : ℚ
  counterfactualReturn : ℚ
deriving Repr, DecidableEq

/-- `StockBreakdownData`: one ticker's current standing. -/
structure StockBreakdownData where
  ticker : String
  shares : ℚ
  buyDate : ℕ
  buyPrice : ℚ
  currentPrice : ℚ
  currentValue : ℚ
  spyShares : ℚ
  spyCurrentValue : ℚ
  gain : ℚ
  spyGain : ℚ
  difference : ℚ
deriving Repr, DecidableEq

/-- `SummaryData`: portfolio-wide rollup. `bestPerformer`/`worstPerformer`
(`{ticker, difference} | null`) are modelled as `Option (String × ℚ)`. -/
structure SummaryData where
  totalCostBasis : ℚ
  totalPortfolioValue : ℚ
  totalCounterfactualValue : ℚ
  portfolioReturn : ℚ
  counterfactualReturn : ℚ
  totalDifference : ℚ
  percentageDifference : ℚ
  bestPerformer : Option (String × ℚ)
  worstPerformer : Option (String × ℚ)
deriving Repr, DecidableEq

/-! ## Rounding

`Math.round(x * 100) / 100` (resp. `* 1000000`).  JS `Math.round` rounds
half-way cases toward `+∞`, i.e. `Math.round x = ⌊x + 1/2⌋`. -/

/-- JS `Math.round`. -/
def jsRound (x : ℚ) : ℚ := (⌊x + 1/2⌋ : ℤ)

/-- `Math.round(x * 100) / 100`. -/
def round2 (x : ℚ) : ℚ := jsRound (x * 100) / 100

/-- `Math.round(x * 1000000) / 1000000`. -/
def round6 (x : ℚ) : ℚ := jsRound (x * 1000000) / 1000000

/-! ## Price lookup primitives (`stockApi.ts`) -/

/-- `getLatestPrice`: last entry's price, `0` for an empty series. -/
def getLatestPrice (prices : List StockPrice) : ℚ :=
  match prices.getLast? with
  | some p => p.price
  | none => 0

/-- The backward scan of `findPriceOnDate`: starting from the *end* of the
array, the first entry whose date is `≤ date` (i.e. the last such entry of
the list). -/
def scanBack (prices : List StockPrice) (date : ℕ) : Option StockPrice :=
  match prices with
  | [] => none
  | p :: rest =>
    match scanBack rest date with
    | some q => some q
    | none => if p.date ≤ date then some p else none

/-- `findPriceOnDate`: linear backward scan for the last entry dated
`≤ date`; falls back to the first entry, `null` only when empty. -/
def findPriceOnDate (prices : List StockPrice) (date : ℕ) : Option StockPrice :=
  match scanBack prices date with
  | some p => some p
  | none => prices.head?

/-- `getPriceOnDate`. -/
def getPriceOnDate (prices : List StockPrice) (date : ℕ) : Option ℚ :=
  (findPriceOnDate prices date).map (·.price)

/-- `getHighPriceOnDate`: the day's high if present, else the close. -/
def getHighPriceOnDate (prices : List StockPrice) (date : ℕ) : Option ℚ :=
  match findPriceOnDate prices date with
  | some e => some (e.high.getD e.price)
  | none => none

/-- The `while (left <= right)` loop of `getPriceOnOrBefore` (binary search
for the rightmost entry dated `≤ targetDate`).  `fuel` bounds the number of
iterations; `prices.length + 1` always suffices since `right + 1 - left`
strictly decreases. -/
def bsearchGo (prices : List StockPrice) (targetDate : ℕ) :
    Nat → Nat → Int → Option ℚ → Option ℚ
  | 0, _, _, result => result
  | fuel + 1, left, right, result =>
    if (left : Int) ≤ right then
      let mid : Nat := (left + right.toNat) / 2
      let entry := prices.getD mid default
      if entry.date ≤ targetDate then
        bsearchGo prices targetDate fuel (mid + 1) right (some entry.price)
      else
        bsearchGo prices targetDate fuel left ((mid : Int) - 1) result
    else result

/-- `getPriceOnOrBefore` (`calculations.ts`): binary search for the largest
date `≤ targetDate`; falls back to the first entry's price; `null` only for
an empty series. -/
def getPriceOnOrBefore (prices : List StockPrice) (targetDate : ℕ) : Option ℚ :=
  match prices with
  | [] => none
  | p0 :: _ =>
    match bsearchGo prices targetDate (prices.length + 1) 0 ((prices.length : Int) - 1) none with
    | some r => some r
    | none => some p0.price

/-! ## Sorting

All the engine's `.sort` calls use comparators derived from a total preorder
(date order, or descending difference).  JS `sort` is stable; a stable sort
w.r.t. a total preorder is unique, so `List.insertionSort` produces the
identical array. -/

/-- `[...l].sort((a, b) => dateOf(a).localeCompare(dateOf(b)))`. -/
def sortByDate {α : Type} (dateOf : α → ℕ) (l : List α) : List α :=
  List.insertionSort (fun a b => dateOf a ≤ dateOf b) l

/-! ## Split adjustment (`calculations.ts`) -/

/-- `getSplitAdjustmentFactor`: cumulative factor of all splits dated
strictly after `priceDate`. -/
def getSplitAdjustmentFactor (splits : List StockSplit) (priceDate : ℕ) : ℚ :=
  splits.foldl
    (fun factor split =>
      if priceDate < split.date then factor * split.splitFactor else factor) 1

/-- `buildUnadjustedPriceMap`: date → un-adjusted (true historical) price. -/
def buildUnadjustedPriceMap (prices : List StockPrice) (splits : List StockSplit) :
    JsMap ℕ ℚ :=
  let sortedSplits := sortByDate StockSplit.date splits
  prices.foldl
    (fun m p => mapSet m p.date (p.price * getSplitAdjustmentFactor sortedSplits p.date)) []

/-- The binary-search loop of `getUnadjustedPriceOnOrBefore`; tracks the
matched entry's date together with its price (both result variables of the
source are always assigned together). -/
def bsearchGo2 (prices : List StockPrice) (targetDate : ℕ) :
    Nat → Nat → Int → Option (ℕ × ℚ) → Option (ℕ × ℚ)
  | 0, _, _, result => result
  | fuel + 1, left, right, result =>
    if (left : Int) ≤ right then
      let mid : Nat := (left + right.toNat) / 2
      let entry := prices.getD mid default
      if entry.date ≤ targetDate then
        bsearchGo2 prices targetDate fuel (mid + 1) right (some (entry.date, entry.price))
      else
        bsearchGo2 prices targetDate fuel left ((mid : Int) - 1) result
    else result

/-- `getUnadjustedPriceOnOrBefore`: on-or-before lookup returning the
split-un-adjusted price. -/
def getUnadjustedPriceOnOrBefore (prices : List StockPrice) (splits : List StockSplit)
    (targetDate : ℕ) : Option ℚ :=
  match prices with
  | [] => none
  | p0 :: _ =>
    let sortedSplits := sortByDate StockSplit.date splits
    let r :=
      match bsearchGo2 prices targetDate (prices.length + 1) 0 ((prices.length : Int) - 1) none with
      | some x => some x
      | none => some (p0.date, p0.price)
    match r with
    | some (d, pr) => some (pr * getSplitAdjustmentFactor sortedSplits d)
    | none => none

/-! ## Time-series engine (`calculatePortfolioTimeSeries`) -/

/-- Per-ticker unadjusted price maps (the `priceMaps` pre-computation; the
`TVIX` branch of the source only logs). -/
def buildPriceMaps (stockPrices : JsMap String (List StockPrice))
    (splits : JsMap String (List StockSplit)) : JsMap String (JsMap ℕ ℚ) :=
  stockPrices.foldl
    (fun acc p =>
      mapSet acc p.1 (buildUnadjustedPriceMap p.2 ((mapGet? splits p.1).getD []))) []

/-- The deposit pre-computation: walks `sortedDeposits` accumulating
`cumulativeDepositSpyShares` and recording it in `depositSpySharesByDate`.
The `if (spyPriceAtDeposit)` truthiness guard skips both a missing (`null`)
and a zero price. -/
def buildDepositShares (spyPrices : List StockPrice) :
    List CashFlow → JsMap ℕ ℚ × ℚ → JsMap ℕ ℚ × ℚ
  | [], acc => acc
  | deposit :: rest, (m, cumulative) =>
    match getPriceOnOrBefore spyPrices deposit.date with
    | none => buildDepositShares spyPrices rest (m, cumulative)
    | some p =>
      if p = 0 then buildDepositShares spyPrices rest (m, cumulative)
      else
        let c := cumulative + deposit.amount / p
        buildDepositShares spyPrices rest (mapSet m deposit.date c, c)

/-- `tradeSpySharesChange` for one trade: the trade's cash value converted
to index shares at the on-or-before index price, negated for sells; `0`
when the index price is missing or zero (`if (!spyPriceAtTrade) return 0`).
The source precomputes these in an array indexed like `sortedTrades`; the
loop below calls this function at the same trades in the same order. -/
def tradeSpyChange (spyPrices : List StockPrice) (trade : Trade) : ℚ :=
  let tradeAmount := trade.shares * trade.price.getD 0
  match getPriceOnOrBefore spyPrices trade.date with
  | none => 0
  | some p =>
    if p = 0 then 0
    else
      let spyShares := tradeAmount / p
      match trade.type with
      | .sell => -spyShares
      | .buy => spyShares

/-- State of the day loop: the unprocessed suffix of `sortedTrades`
(the `tradeIndex` cursor), `sharesPerTicker`, `tradeBasedSpyShares` and
`tradeCostBasis`. -/
structure TSState where
  remTrades : List Trade
  shares : JsMap String ℚ
  tradeBasedSpyShares : ℚ
  tradeCostBasis : ℚ
deriving Repr

/-- The inner `while` loop: process all unprocessed trades dated
`≤ currentDate`, updating held shares, the trade-based index-share total
and the trade-based cost basis. -/
def processTrades (spyPrices : List StockPrice) (currentDate : ℕ) :
    List Trade → JsMap String ℚ → ℚ → ℚ → TSState
  | [], shares, tbss, tcb => ⟨[], shares, tbss, tcb⟩
  | trade :: rest, shares, tbss, tcb =>
    if trade.date ≤ currentDate then
      let tradeAmount := trade.shares * trade.price.getD 0
      let cur := (mapGet? shares trade.ticker).getD 0
      match trade.type with
      | .sell =>
        processTrades spyPrices currentDate rest
          (mapSet shares trade.ticker (cur - trade.shares))
          (tbss + tradeSpyChange spyPrices trade) (tcb - tradeAmount)
      | .buy =>
        processTrades spyPrices currentDate rest
          (mapSet shares trade.ticker (cur + trade.shares))
          (tbss + tradeSpyChange spyPrices trade) (tcb + tradeAmount)
    else ⟨trade :: rest, shares, tbss, tcb⟩

/-- Portfolio value on a day: sum over tickers with positive held shares of
shares × unadjusted price, with the on-or-before fallback when the day has
no exact price (debug logging of the source omitted). -/
def portfolioValueAt (priceMaps : JsMap String (JsMap ℕ ℚ))
    (stockPrices : JsMap String (List StockPrice))
    (splits : JsMap String (List StockSplit))
    (shares : JsMap String ℚ) (currentDate : ℕ) : ℚ :=
  shares.foldl
    (fun acc p =>
      if p.2 ≤ 0 then acc
      else
        let fromMap := (mapGet? priceMaps p.1).bind (fun m => mapGet? m currentDate)
        let currentStockPrice :=
          match fromMap with
          | some v => v
          | none =>
            (getUnadjustedPriceOnOrBefore ((mapGet? stockPrices p.1).getD [])
              ((mapGet? splits p.1).getD []) currentDate).getD 0
        acc + p.2 * currentStockPrice) 0

/-- The per-day deposit-basis selection: walk `sortedDeposits` until the
first deposit dated after `currentDate` (the `break`), keeping the last
value found in `depositSpySharesByDate`. -/
def depositSharesAsOf (depositMap : JsMap ℕ ℚ) (currentDate : ℕ) :
    List CashFlow → ℚ → ℚ
  | [], acc => acc
  | deposit :: rest, acc =>
    if currentDate < deposit.date then acc
    else
      depositSharesAsOf depositMap currentDate rest
        (match mapGet? depositMap deposit.date with
         | some v => v
         | none => acc)

/-- Everything the day loop reads but never writes. -/
structure TSEnv where
  spyPrices : List StockPrice
  stockPrices : JsMap String (List StockPrice)
  splits : JsMap String (List StockSplit)
  priceMaps : JsMap String (JsMap ℕ ℚ)
  sortedCashFlows : List CashFlow
  sortedDeposits : List CashFlow
  depositMap : JsMap ℕ ℚ
  useCashFlowBasis : Bool
  useDepositBasis : Bool

/-- The main `for (const spyPrice of spyPrices)` loop. -/
def tsLoop (env : TSEnv) : List StockPrice → TSState → List PortfolioDataPoint
  | [], _ => []
  | spyPrice :: rest, s =>
    let currentDate := spyPrice.date
    let s' := processTrades env.spyPrices currentDate s.remTrades s.shares
      s.tradeBasedSpyShares s.tradeCostBasis
    let portfolioValue :=
      portfolioValueAt env.priceMaps env.stockPrices env.splits s'.shares currentDate
    let counterfactualSpyShares :=
      if env.useDepositBasis then
        depositSharesAsOf env.depositMap currentDate env.sortedDeposits 0
      else s'.tradeBasedSpyShares
    let counterfactualValue := (max 0 counterfactualSpyShares) * spyPrice.price
    let costBasis :=
      if env.useCashFlowBasis then
        (env.sortedCashFlows.filter (fun cf => cf.date ≤ currentDate)).foldl
          (fun sum cf => sum + cf.amount) 0
      else max 0 s'.tradeCostBasis
    let restPoints := tsLoop env rest s'
    if 0 < costBasis then
      { date := currentDate
        portfolioValue := round2 portfolioValue
        counterfactualValue := round2 counterfactualValue
        costBasis := round2 costBasis
        portfolioReturn := round2 ((portfolioValue - costBasis) / costBasis * 100)
        counterfactualReturn := round2 ((counterfactualValue - costBasis) / costBasis * 100) }
        :: restPoints
    else restPoints

/-- Whole-run cost-basis policy: cash-flow basis iff the sum of all supplied
cash-flow amounts is strictly positive (`totalCashInflows > 0`). -/
def useCashFlowBasis (cashFlows : List CashFlow) : Bool :=
  0 < cashFlows.foldl (fun sum cf => sum + cf.amount) 0

/-- Whole-run counterfactual policy: deposit basis iff any cash flow has
type `deposit` (`deposits.length > 0`). -/
def useDepositBasis (cashFlows : List CashFlow) : Bool :=
  cashFlows.filter (fun cf => cf.type = CashFlowType.deposit) ≠ []

/-- `calculatePortfolioTimeSeries`. -/
def calculatePortfolioTimeSeries (trades : List Trade)
    (stockPrices : JsMap String (List StockPrice)) (spyPrices : List StockPrice)
    (cashFlows : List CashFlow) (splits : JsMap String (List StockSplit)) :
    List PortfolioDataPoint :=
  if trades = [] ∨ spyPrices = [] then []
  else
    let sortedTrades := sortByDate Trade.date trades
    let priceMaps := buildPriceMaps stockPrices splits
    let sortedCashFlows := sortByDate CashFlow.date cashFlows
    let deposits := cashFlows.filter (fun cf => cf.type = CashFlowType.deposit)
    let sortedDeposits := sortByDate CashFlow.date deposits
    let depositMap := (buildDepositShares spyPrices sortedDeposits ([], 0)).1
    tsLoop
      { spyPrices := spyPrices, stockPrices := stockPrices, splits := splits
        priceMaps := priceMaps, sortedCashFlows := sortedCashFlows
        sortedDeposits := sortedDeposits, depositMap := depositMap
        useCashFlowBasis := useCashFlowBasis cashFlows
        useDepositBasis := useDepositBasis cashFlows }
      spyPrices ⟨sortedTrades, [], 0, 0⟩

/-! ## Breakdown engine (`calculateStockBreakdown`) -/

/-- The per-ticker accumulator of `calculateStockBreakdown`. -/
structure AggEntry where
  totalShares : ℚ
  totalCost : ℚ
  totalSpyShares : ℚ
  firstBuyDate : ℕ
deriving Repr, DecidableEq

/-- One iteration of the aggregation loop of `calculateStockBreakdown`: a
missing ticker is initialised with zero totals and
`firstBuyDate = trade.date` (whatever the trade's direction), then the trade
is applied; only buy trades can lower `firstBuyDate` afterwards. -/
def aggApply (spyPrices : List StockPrice) (aggregated : JsMap String AggEntry)
    (trade : Trade) : JsMap String AggEntry :=
  let tradePrice := trade.price.getD 0
  let tradeAmount := trade.shares * tradePrice
  let spySharesChange :=
    match getPriceOnDate spyPrices trade.date with
    | none => 0
    | some p => if p = 0 then 0 else tradeAmount / p
  let cur := (mapGet? aggregated trade.ticker).getD
    { totalShares := 0, totalCost := 0, totalSpyShares := 0, firstBuyDate := trade.date }
  match trade.type with
  | .sell =>
    mapSet aggregated trade.ticker
      { totalShares := cur.totalShares - trade.shares
        totalCost := cur.totalCost - tradeAmount
        totalSpyShares := cur.totalSpyShares - spySharesChange
        firstBuyDate := cur.firstBuyDate }
  | .buy =>
    mapSet aggregated trade.ticker
      { totalShares := cur.totalShares + trade.shares
        totalCost := cur.totalCost + tradeAmount
        totalSpyShares := cur.totalSpyShares + spySharesChange
        firstBuyDate :=
          if trade.date < cur.firstBuyDate then trade.date else cur.firstBuyDate }

/-- The aggregation loop of `calculateStockBreakdown`. -/
def aggregateTrades (spyPrices : List StockPrice) (trades : List Trade) :
    JsMap String AggEntry :=
  trades.foldl (aggApply spyPrices) []

/-- One iteration of the output-building loop of `calculateStockBreakdown`:
appends one row when the ticker has positive net shares and a non-empty
price series, else leaves the accumulator unchanged. -/
def rowStep (stockPrices : JsMap String (List StockPrice)) (currentSpyPrice : ℚ)
    (breakdown : List StockBreakdownData) (p : String × AggEntry) :
    List StockBreakdownData :=
  let ticker := p.1
  let data := p.2
  if data.totalShares ≤ 0 then breakdown
  else
    match mapGet? stockPrices ticker with
    | none => breakdown
    | some tickerPrices =>
      if tickerPrices = [] then breakdown
      else
        let currentPrice := getLatestPrice tickerPrices
        let currentValue := data.totalShares * currentPrice
        let spyCurrentValue := (max 0 data.totalSpyShares) * currentSpyPrice
        let avgBuyPrice :=
          if 0 < data.totalShares then (max 0 data.totalCost) / data.totalShares else 0
        let netInvestment := max 0 data.totalCost
        let gain := currentValue - netInvestment
        let spyGain := spyCurrentValue - netInvestment
        let difference := gain - spyGain
        breakdown ++
          [{ ticker := ticker
             shares := round6 data.totalShares
             buyDate := data.firstBuyDate
             buyPrice := round2 avgBuyPrice
             currentPrice := currentPrice
             currentValue := round2 currentValue
             spyShares := round2 (max 0 data.totalSpyShares)
             spyCurrentValue := round2 spyCurrentValue
             gain := round2 gain
             spyGain := round2 spyGain
             difference := round2 difference }]

/-- The output-building loop of `calculateStockBreakdown`. -/
def breakdownRows (stockPrices : JsMap String (List StockPrice))
    (currentSpyPrice : ℚ) (aggregated : JsMap String AggEntry) :
    List StockBreakdownData :=
  aggregated.foldl (rowStep stockPrices currentSpyPrice) []

/-- `calculateStockBreakdown`.  The final
`breakdown.sort((a, b) => b.difference - a.difference)` (stable, descending
by `difference`) is modelled by a stable insertion sort on the same key. -/
def calculateStockBreakdown (trades : List Trade)
    (stockPrices : JsMap String (List StockPrice)) (spyPrices : List StockPrice) :
    List StockBreakdownData :=
  let aggregated := aggregateTrades spyPrices trades
  let currentSpyPrice := getLatestPrice spyPrices
  let breakdown := breakdownRows stockPrices currentSpyPrice aggregated
  List.insertionSort (fun a b => b.difference ≤ a.difference) breakdown

/-! ## Summary engine (`calculateSummary`) -/

/-- `calculateSummary` (its `cashFlows` parameter is unused by the source). -/
def calculateSummary (breakdown : List StockBreakdownData)
    (_cashFlows : List CashFlow) (trades : List Trade) : SummaryData :=
  match breakdown with
  | [] =>
    { totalCostBasis := 0, totalPortfolioValue := 0, totalCounterfactualValue := 0
      portfolioReturn := 0, counterfactualReturn := 0, totalDifference := 0
      percentageDifference := 0, bestPerformer := none, worstPerformer := none }
  | first :: _ =>
    let totalCostBasis : ℚ :=
      max 0 (trades.foldl
        (fun (sum : ℚ) t =>
          let amount := t.shares * t.price.getD 0
          sum + (match t.type with | .sell => -amount | .buy => amount)) 0)
    let totalPortfolioValue : ℚ := breakdown.foldl (fun sum b => sum + b.currentValue) 0
    let totalCounterfactualValue : ℚ := breakdown.foldl (fun sum b => sum + b.spyCurrentValue) 0
    let portfolioReturn : ℚ :=
      if 0 < totalCostBasis then (totalPortfolioValue - totalCostBasis) / totalCostBasis * 100
      else 0
    let counterfactualReturn : ℚ :=
      if 0 < totalCostBasis then
        (totalCounterfactualValue - totalCostBasis) / totalCostBasis * 100
      else 0
    let totalDifference : ℚ := totalPortfolioValue - totalCounterfactualValue
    let percentageDifference : ℚ :=
      if 0 < totalCostBasis then totalDifference / totalCostBasis * 100 else 0
    let bestPerformer :=
      breakdown.foldl (fun best b => if best.difference < b.difference then b else best) first
    let worstPerformer :=
      breakdown.foldl (fun worst b => if b.difference < worst.difference then b else worst) first
    { totalCostBasis := round2 totalCostBasis
      totalPortfolioValue := round2 totalPortfolioValue
      totalCounterfactualValue := round2 totalCounterfactualValue
      portfolioReturn := round2 portfolioReturn
      counterfactualReturn := round2 counterfactualReturn
      totalDifference := round2 totalDifference
      percentageDifference := round2 percentageDifference
      bestPerformer := some (bestPerformer.ticker, bestPerformer.difference)
      worstPerformer := some (worstPerformer.ticker, worstPerformer.difference) }

/-! ## Checked mirrors

To state claim C8 ("no division ever has a zero divisor, so no emitted field
is `NaN`/`Infinity`") we mirror every function that divides by a non-constant
quantity in the `Option` monad, replacing each division `a / b` by
`checkedDiv a b`, which fails on a zero divisor.  Proving the mirror equal to
`some` of the plain function proves every division guarded. -/

/-- Division that detects a zero divisor (in JS: a `NaN`/`Infinity` source). -/
def checkedDiv (a b : ℚ) : Option ℚ := if b = 0 then none else some (a / b)

/-- `tradeSpyChange` with checked division. -/
def checkedTradeSpyChange (spyPrices : List StockPrice) (trade : Trade) : Option ℚ :=
  let tradeAmount := trade.shares * trade.price.getD 0
  match getPriceOnOrBefore spyPrices trade.date with
  | none => some 0
  | some p =>
    if p = 0 then some 0
    else
      (checkedDiv tradeAmount p).map
        (fun spyShares => match trade.type with | .sell => -spyShares | .buy => spyShares)

/-- `processTrades` with checked division. -/
def checkedProcessTrades (spyPrices : List StockPrice) (currentDate : ℕ) :
    List Trade → JsMap String ℚ → ℚ → ℚ → Option TSState
  | [], shares, tbss, tcb => some ⟨[], shares, tbss, tcb⟩
  | trade :: rest, shares, tbss, tcb =>
    if trade.date ≤ currentDate then
      let tradeAmount := trade.shares * trade.price.getD 0
      let cur := (mapGet? shares trade.ticker).getD 0
      (checkedTradeSpyChange spyPrices trade).bind
        (fun change =>
          match trade.type with
          | .sell =>
            checkedProcessTrades spyPrices currentDate rest
              (mapSet shares trade.ticker (cur - trade.shares))
              (tbss + change) (tcb - tradeAmount)
          | .buy =>
            checkedProcessTrades spyPrices currentDate rest
              (mapSet shares trade.ticker (cur + trade.shares))
              (tbss + change) (tcb + tradeAmount))
    else some ⟨trade :: rest, shares, tbss, tcb⟩

/-- `buildDepositShares` with checked division. -/
def checkedBuildDepositShares (spyPrices : List StockPrice) :
    List CashFlow → JsMap ℕ ℚ × ℚ → Option (JsMap ℕ ℚ × ℚ)
  | [], acc => some acc
  | deposit :: rest, (m, cumulative) =>
    match getPriceOnOrBefore spyPrices deposit.date with
    | none => checkedBuildDepositShares spyPrices rest (m, cumulative)
    | some p =>
      if p = 0 then checkedBuildDepositShares spyPrices rest (m, cumulative)
      else
        (checkedDiv deposit.amount p).bind
          (fun q =>
            let c := cumulative + q
            checkedBuildDepositShares spyPrices rest (mapSet m deposit.date c, c))

/-- `tsLoop` with checked division. -/
def checkedTsLoop (env : TSEnv) : List StockPrice → TSState → Option (List PortfolioDataPoint)
  | [], _ => some []
  | spyPrice :: rest, s =>
    let currentDate := spyPrice.date
    (checkedProcessTrades env.spyPrices currentDate s.remTrades s.shares
        s.tradeBasedSpyShares s.tradeCostBasis).bind
      (fun s' =>
        let portfolioValue :=
          portfolioValueAt env.priceMaps env.stockPrices env.splits s'.shares currentDate
        let counterfactualSpyShares :=
          if env.useDepositBasis then
            depositSharesAsOf env.depositMap currentDate env.sortedDeposits 0
          else s'.tradeBasedSpyShares
        let counterfactualValue := (max 0 counterfactualSpyShares) * spyPrice.price
        let costBasis :=
          if env.useCashFlowBasis then
            (env.sortedCashFlows.filter (fun cf => cf.date ≤ currentDate)).foldl
              (fun sum cf => sum + cf.amount) 0
          else max 0 s'.tradeCostBasis
        (checkedTsLoop env rest s').bind
          (fun restPoints =>
            if 0 < costBasis then
              (checkedDiv (portfolioValue - costBasis) costBasis).bind
                (fun pr =>
                  (checkedDiv (counterfactualValue - costBasis) costBasis).map
                    (fun cr =>
                      { date := currentDate
                        portfolioValue := round2 portfolioValue
                        counterfactualValue := round2 counterfactualValue
                        costBasis := round2 costBasis
                        portfolioReturn := round2 (pr * 100)
                        counterfactualReturn := round2 (cr * 100) } :: restPoints))
            else some restPoints))

/-- `calculatePortfolioTimeSeries` with checked division. -/
def checkedCalculatePortfolioTimeSeries (trades : List Trade)
    (stockPrices : JsMap String (List StockPrice)) (spyPrices : List StockPrice)
    (cashFlows : List CashFlow) (splits : JsMap String (List StockSplit)) :
    Option (List PortfolioDataPoint) :=
  if trades = [] ∨ spyPrices = [] then some []
  else
    let sortedTrades := sortByDate Trade.date trades
    let priceMaps := buildPriceMaps stockPrices splits
    let sortedCashFlows := sortByDate CashFlow.date cashFlows
    let deposits := cashFlows.filter (fun cf => cf.type = CashFlowType.deposit)
    let sortedDeposits := sortByDate CashFlow.date deposits
    (checkedBuildDepositShares spyPrices sortedDeposits ([], 0)).bind
      (fun dm =>
        checkedTsLoop
          { spyPrices := spyPrices, stockPrices := stockPrices, splits := splits
            priceMaps := priceMaps, sortedCashFlows := sortedCashFlows
            sortedDeposits := sortedDeposits, depositMap := dm.1
            useCashFlowBasis := useCashFlowBasis cashFlows
            useDepositBasis := useDepositBasis cashFlows }
          spyPrices ⟨sortedTrades, [], 0, 0⟩)

/-- `aggregateTrades` with checked division. -/
def checkedAggregateTrades (spyPrices : List StockPrice) (trades : List Trade) :
    Option (JsMap String AggEntry) :=
  trades.foldlM
    (fun aggregated trade =>
      let tradePrice := trade.price.getD 0
      let tradeAmount := trade.shares * tradePrice
      let spySharesChange? :=
        match getPriceOnDate spyPrices trade.date with
        | none => some 0
        | some p => if p = 0 then some 0 else checkedDiv tradeAmount p
      spySharesChange?.map
        (fun spySharesChange =>
          let cur := (mapGet? aggregated trade.ticker).getD
            { totalShares := 0, totalCost := 0, totalSpyShares := 0, firstBuyDate := trade.date }
          match trade.type with
          | .sell =>
            mapSet aggregated trade.ticker
              { totalShares := cur.totalShares - trade.shares
                totalCost := cur.totalCost - tradeAmount
                totalSpyShares := cur.totalSpyShares - spySharesChange
                firstBuyDate := cur.firstBuyDate }
          | .buy =>
            mapSet aggregated trade.ticker
              { totalShares := cur.totalShares + trade.shares
                totalCost := cur.totalCost + tradeAmount
                totalSpyShares := cur.totalSpyShares + spySharesChange
                firstBuyDate :=
                  if trade.date < cur.firstBuyDate then trade.date else cur.firstBuyDate }))
    []

/-- `breakdownRows` with checked division. -/
def checkedBreakdownRows (stockPrices : JsMap String (List StockPrice))
    (currentSpyPrice : ℚ) (aggregated : JsMap String AggEntry) :
    Option (List StockBreakdownData) :=
  aggregated.foldlM
    (fun (breakdown : List StockBreakdownData) (p : String × AggEntry) =>
      let ticker := p.1
      let data := p.2
      if data.totalShares ≤ 0 then some breakdown
      else
        match mapGet? stockPrices ticker with
        | none => some breakdown
        | some tickerPrices =>
          if tickerPrices = [] then some breakdown
          else
            let currentPrice := getLatestPrice tickerPrices
            let currentValue := data.totalShares * currentPrice
            let spyCurrentValue := (max 0 data.totalSpyShares) * currentSpyPrice
            let avgBuyPrice? :=
              if 0 < data.totalShares then checkedDiv (max 0 data.totalCost) data.totalShares
              else some 0
            avgBuyPrice?.map
              (fun avgBuyPrice =>
                let netInvestment := max 0 data.totalCost
                let gain := currentValue - netInvestment
                let spyGain := spyCurrentValue - netInvestment
                let difference := gain - spyGain
                breakdown ++
                  [{ ticker := ticker
                     shares := round6 data.totalShares
                     buyDate := data.firstBuyDate
                     buyPrice := round2 avgBuyPrice
                     currentPrice := currentPrice
                     currentValue := round2 currentValue
                     spyShares := round2 (max 0 data.totalSpyShares)
                     spyCurrentValue := round2 spyCurrentValue
                     gain := round2 gain
                     spyGain := round2 spyGain
                     difference := round2 difference }]))
    []

/-- `calculateStockBreakdown` with checked division. -/
def checkedCalculateStockBreakdown (trades : List Trade)
    (stockPrices : JsMap String (List StockPrice)) (spyPrices : List StockPrice) :
    Option (List StockBreakdownData) :=
  (checkedAggregateTrades spyPrices trades).bind
    (fun aggregated =>
      let currentSpyPrice := getLatestPrice spyPrices
      (checkedBreakdownRows stockPrices currentSpyPrice aggregated).map
        (fun breakdown =>
          List.insertionSort (fun a b => b.difference ≤ a.difference) breakdown))

/-- `calculateSummary` with checked division. -/
def checkedCalculateSummary (breakdown : List StockBreakdownData)
    (_cashFlows : List CashFlow) (trades : List Trade) : Option SummaryData :=
  match breakdown with
  | [] =>
    some
      { totalCostBasis := 0, totalPortfolioValue := 0, totalCounterfactualValue := 0
        portfolioReturn := 0, counterfactualReturn := 0, totalDifference := 0
        percentageDifference := 0, bestPerformer := none, worstPerformer := none }
  | first :: _ =>
    let totalCostBasis : ℚ :=
      max 0 (trades.foldl
        (fun (sum : ℚ) t =>
          let amount := t.shares * t.price.getD 0
          sum + (match t.type with | .sell => -amount | .buy => amount)) 0)
    let totalPortfolioValue : ℚ := breakdown.foldl (fun sum b => sum + b.currentValue) 0
    let totalCounterfactualValue : ℚ :=
      breakdown.foldl (fun sum b => sum + b.spyCurrentValue) 0
    let portfolioReturn? :=
      if 0 < totalCostBasis then
        (checkedDiv (totalPortfolioValue - totalCostBasis) totalCostBasis).map (· * 100)
      else some 0
    let counterfactualReturn? :=
      if 0 < totalCostBasis then
        (checkedDiv (totalCounterfactualValue - totalCostBasis) totalCostBasis).map (· * 100)
      else some 0
    let totalDifference : ℚ := totalPortfolioValue - totalCounterfactualValue
    let percentageDifference? :=
      if 0 < totalCostBasis then
        (checkedDiv totalDifference totalCostBasis).map (· * 100)
      else some 0
    portfolioReturn?.bind
      (fun portfolioReturn =>
        counterfactualReturn?.bind
          (fun counterfactualReturn =>
            percentageDifference?.map
              (fun percentageDifference =>
                let bestPerformer :=
                  breakdown.foldl
                    (fun best b => if best.difference < b.difference then b else best) first
                let worstPerformer :=
                  breakdown.foldl
                    (fun worst b => if b.difference < worst.difference then b else worst) first
                { totalCostBasis := round2 totalCostBasis
                  totalPortfolioValue := round2 totalPortfolioValue
                  totalCounterfactualValue := round2 totalCounterfactualValue
                  portfolioReturn := round2 portfolioReturn
                  counterfactualReturn := round2 counterfactualReturn
                  totalDifference := round2 totalDifference
                  percentageDifference := round2 percentageDifference
                  bestPerformer := some (bestPerformer.ticker, bestPerformer.difference)
                  worstPerformer := some (worstPerformer.ticker, worstPerformer.difference) })))

/-! ## Spec-side definitions

Pure per-day formulas, written from the specification's description of the
engine, used to state the claims; the lemmas below connect them to the
loop-and-cursor implementation. -/

/-- The day-loop body as a function of the state at the start of the day:
what the loop appends for one `spyPrice` (or `none` when the day is
skipped).  `tsLoop` is proved equal to `filterMap` of this. -/
def dayPoint (env : TSEnv) (s : TSState) (spyPrice : StockPrice) :
    Option PortfolioDataPoint :=
  let currentDate := spyPrice.date
  let s' := processTrades env.spyPrices currentDate s.remTrades s.shares
    s.tradeBasedSpyShares s.tradeCostBasis
  let portfolioValue :=
    portfolioValueAt env.priceMaps env.stockPrices env.splits s'.shares currentDate
  let counterfactualSpyShares :=
    if env.useDepositBasis then
      depositSharesAsOf env.depositMap currentDate env.sortedDeposits 0
    else s'.tradeBasedSpyShares
  let counterfactualValue := (max 0 counterfactualSpyShares) * spyPrice.price
  let costBasis :=
    if env.useCashFlowBasis then
      (env.sortedCashFlows.filter (fun cf => cf.date ≤ currentDate)).foldl
        (fun sum cf => sum + cf.amount) 0
    else max 0 s'.tradeCostBasis
  if 0 < costBasis then
    some
      { date := currentDate
        portfolioValue := round2 portfolioValue
        counterfactualValue := round2 counterfactualValue
        costBasis := round2 costBasis
        portfolioReturn := round2 ((portfolioValue - costBasis) / costBasis * 100)
        counterfactualReturn := round2 ((counterfactualValue - costBasis) / costBasis * 100) }
  else none

/-- A trade's signed cash value: `shares × (price ?? 0)`, negated for sells. -/
def signedTradeAmount (t : Trade) : ℚ :=
  match t.type with
  | .sell => -(t.shares * t.price.getD 0)
  | .buy => t.shares * t.price.getD 0

/-- Sum of all supplied cash-flow amounts (`totalCashInflows`). -/
def cashFlowTotal (cashFlows : List CashFlow) : ℚ :=
  (cashFlows.map (·.amount)).sum

/-- Sum of the cash-flow amounts dated `≤ d`. -/
def cashFlowsUpTo (cashFlows : List CashFlow) (d : ℕ) : ℚ :=
  ((cashFlows.filter (fun cf => cf.date ≤ d)).map (·.amount)).sum

/-- Net signed trade value of the trades dated `≤ d`. -/
def tradesTotalUpTo (trades : List Trade) (d : ℕ) : ℚ :=
  ((trades.filter (fun t => t.date ≤ d)).map signedTradeAmount).sum

/-- The cost basis the engine uses for day `d`: cumulative cash-flow amounts
when the run is in cash-flow-basis mode (total cash inflows strictly
positive), else the trade-derived net cost floored at zero. -/
def costBasisAt (trades : List Trade) (cashFlows : List CashFlow) (d : ℕ) : ℚ :=
  if 0 < cashFlowTotal cashFlows then cashFlowsUpTo cashFlows d
  else max 0 (tradesTotalUpTo trades d)

/-- The counterfactual index-share count the engine uses for day `d`:
the deposit-derived cumulative share count when the run is in deposit-basis
mode (some cash flow has type `deposit`), else the trade-derived running
share total. -/
def counterfactualSharesAt (trades : List Trade) (cashFlows : List CashFlow)
    (spyPrices : List StockPrice) (d : ℕ) : ℚ :=
  let deposits := cashFlows.filter (fun cf => cf.type = CashFlowType.deposit)
  if deposits = [] then
    ((trades.filter (fun t => t.date ≤ d)).map (tradeSpyChange spyPrices)).sum
  else
    let sortedDeposits := sortByDate CashFlow.date deposits
    depositSharesAsOf (buildDepositShares spyPrices sortedDeposits ([], 0)).1 d
      sortedDeposits 0

/-- Dates of a ticker's buy trades. -/
def buyDatesOf (trades : List Trade) (ticker : String) : List ℕ :=
  (trades.filter (fun t => t.ticker = ticker ∧ t.type = TradeType.buy)).map Trade.date

/-- Running minimum of a list of dates. -/
def minDate? (l : List ℕ) : Option ℕ :=
  l.foldl
    (fun acc d => match acc with | none => some d | some m => some (min m d)) none

/-- The earliest date among a ticker's buy trades (the claimed meaning of
`firstBuyDate`). -/
def firstBuyDateSpec (trades : List Trade) (ticker : String) : Option ℕ :=
  minDate? (buyDatesOf trades ticker)

/-- The first trade for a ticker in input order. -/
def firstTradeOf (trades : List Trade) (ticker : String) : Option Trade :=
  (trades.filter (fun t => t.ticker = ticker)).head?

/-- A ticker's aggregated net shares (buys add, sells subtract). -/
def netSharesOf (trades : List Trade) (ticker : String) : ℚ :=
  ((trades.filter (fun t => t.ticker = ticker)).map
    (fun t => match t.type with | .sell => -t.shares | .buy => t.shares)).sum

/-- The environment `calculatePortfolioTimeSeries` hands to its day loop. -/
def tsEnv (stockPrices : JsMap String (List StockPrice)) (spyPrices : List StockPrice)
    (cashFlows : List CashFlow) (splits : JsMap String (List StockSplit)) : TSEnv :=
  { spyPrices := spyPrices, stockPrices := stockPrices, splits := splits
    priceMaps := buildPriceMaps stockPrices splits
    sortedCashFlows := sortByDate CashFlow.date cashFlows
    sortedDeposits := sortByDate CashFlow.date
      (cashFlows.filter (fun cf => cf.type = CashFlowType.deposit))
    depositMap := (buildDepositShares spyPrices
      (sortByDate CashFlow.date
        (cashFlows.filter (fun cf => cf.type = CashFlowType.deposit))) ([], 0)).1
    useCashFlowBasis := useCashFlowBasis cashFlows
    useDepositBasis := useDepositBasis cashFlows }

/-- The initial state of the day loop. -/
def tsInit (trades : List Trade) : TSState :=
  ⟨sortByDate Trade.date trades, [], 0, 0⟩

/-- The cost basis the day loop computes for day `d` when started in state
`s` (the branch on the whole-run mode flag is the loop body's). -/
def runCostBasis (env : TSEnv) (s : TSState) (d : ℕ) : ℚ :=
  if env.useCashFlowBasis then
    (env.sortedCashFlows.filter (fun cf => cf.date ≤ d)).foldl
      (fun sum cf => sum + cf.amount) 0
  else
    max 0 (processTrades env.spyPrices d s.remTrades s.shares
      s.tradeBasedSpyShares s.tradeCostBasis).tradeCostBasis

/-- The counterfactual index-share count the day loop computes for day `d`
when started in state `s`. -/
def runCfShares (env : TSEnv) (s : TSState) (d : ℕ) : ℚ :=
  if env.useDepositBasis then depositSharesAsOf env.depositMap d env.sortedDeposits 0
  else
    (processTrades env.spyPrices d s.remTrades s.shares
      s.tradeBasedSpyShares s.tradeCostBasis).tradeBasedSpyShares

/-- The sequence of `(date, cumulativeDepositSpyShares)` pairs that
`buildDepositShares` records, in recording order (one pair per deposit with
a truthy on-or-before index price). -/
def depositCums (spyPrices : List StockPrice) : List CashFlow → ℚ → List (ℕ × ℚ)
  | [], _ => []
  | deposit :: rest, cumulative =>
    match getPriceOnOrBefore spyPrices deposit.date with
    | none => depositCums spyPrices rest cumulative
    | some p =>
      if p = 0 then depositCums spyPrices rest cumulative
      else
        let c := cumulative + deposit.amount / p
        (deposit.date, c) :: depositCums spyPrices rest c

/-! # Lemmas -/

/-! ## Association-map lemmas -/

theorem mapGet?_mapSet_self {κ α : Type} [DecidableEq κ] (m : JsMap κ α) (k : κ) (v : α) :
    mapGet? (mapSet m k v) k = some v := by
  induction m with
  | nil => simp [mapSet, mapGet?]
  | cons p rest ih =>
    by_cases h : p.1 = k
    · simp [mapSet, mapGet?, h]
    · simp only [mapSet, h, if_false]
      simpa [mapGet?, h] using ih

theorem mapGet?_mapSet_ne {κ α : Type} [DecidableEq κ] (m : JsMap κ α) (k k' : κ) (v : α)
    (h : k ≠ k') : mapGet? (mapSet m k v) k' = mapGet? m k' := by
  induction m with
  | nil => simp [mapSet, mapGet?, h]
  | cons p rest ih =>
    by_cases hp : p.1 = k
    · simp [mapSet, mapGet?, hp, h]
    · simp only [mapSet, hp, if_false]
      by_cases hp' : p.1 = k'
      · simp [mapGet?, hp']
      · simpa [mapGet?, hp'] using ih

theorem mem_keys_mapSet {κ α : Type} [DecidableEq κ] (m : JsMap κ α) (k x : κ) (v : α) :
    x ∈ (mapSet m k v).map Prod.fst ↔ x ∈ m.map Prod.fst ∨ x = k := by
  induction m with
  | nil => simp [mapSet]
  | cons p rest ih =>
    by_cases hp : p.1 = k
    · subst hp
      simp only [mapSet, if_true]
      constructor
      · rintro h
        rcases List.mem_cons.mp h with h | h
        · exact Or.inr h
        · exact Or.inl (List.mem_cons.mpr (Or.inr h))
      · rintro (h | h)
        · rcases List.mem_cons.mp h with h | h
          · exact List.mem_cons.mpr (Or.inl h)
          · exact List.mem_cons.mpr (Or.inr h)
        · exact List.mem_cons.mpr (Or.inl h)
    · simp only [mapSet, hp, if_false, List.map_cons, List.mem_cons, ih]
      tauto

theorem nodupKeys_mapSet {κ α : Type} [DecidableEq κ] (m : JsMap κ α) (k : κ) (v : α)
    (h : (m.map Prod.fst).Nodup) : ((mapSet m k v).map Prod.fst).Nodup := by
  induction m with
  | nil => simp [mapSet]
  | cons p rest ih =>
    rcases List.nodup_cons.mp h with ⟨hp, hrest⟩
    by_cases hpk : p.1 = k
    · subst hpk
      simpa [mapSet] using List.nodup_cons.mpr ⟨hp, hrest⟩
    · simp only [mapSet, hpk, if_false, List.map_cons]
      refine List.nodup_cons.mpr ⟨?_, ih hrest⟩
      intro hmem
      rcases (mem_keys_mapSet rest k p.1 v).mp hmem with h' | h'
      · exact hp h'
      · exact hpk h'

theorem mapGet?_of_mem {κ α : Type} [DecidableEq κ] (m : JsMap κ α) (p : κ × α)
    (hnd : (m.map Prod.fst).Nodup) (hmem : p ∈ m) : mapGet? m p.1 = some p.2 := by
  induction m with
  | nil => cases hmem
  | cons q rest ih =>
    rcases List.nodup_cons.mp hnd with ⟨hq, hrest⟩
    rcases List.mem_cons.mp hmem with h | h
    · subst h
      simp [mapGet?]
    · have hne : q.1 ≠ p.1 := by
        intro he
        exact hq (he ▸ List.mem_map_of_mem Prod.fst h)
      simpa [mapGet?, hne] using ih hrest h

/-! ## Fold helpers -/

theorem foldl_add_amount (cashFlows : List CashFlow) (a : ℚ) :
    cashFlows.foldl (fun sum cf => sum + cf.amount) a = a + (cashFlows.map (·.amount)).sum := by
  induction cashFlows generalizing a with
  | nil => simp
  | cons cf rest ih => simp [ih, add_assoc]

theorem foldl_add_signed (trades : List Trade) (a : ℚ) :
    trades.foldl
      (fun (sum : ℚ) t =>
        let amount := t.shares * t.price.getD 0
        sum + (match t.type with | .sell => -amount | .buy => amount)) a
      = a + (trades.map signedTradeAmount).sum := by
  induction trades generalizing a with
  | nil => simp
  | cons t rest ih =>
    simp only [List.foldl_cons, ih, List.map_cons, List.sum_cons]
    cases ht : t.type <;> simp [signedTradeAmount, ht, add_assoc]

/-! ## Sorting lemmas -/

theorem sortByDate_perm {α : Type} (dateOf : α → ℕ) (l : List α) :
    List.Perm (sortByDate dateOf l) l :=
  List.perm_insertionSort _ l

theorem sortByDate_sorted {α : Type} (dateOf : α → ℕ) (l : List α) :
    (sortByDate dateOf l).Pairwise (fun a b => dateOf a ≤ dateOf b) := by
  have : IsTotal α (fun a b => dateOf a ≤ dateOf b) := ⟨fun a b => Nat.le_total _ _⟩
  have : IsTrans α (fun a b => dateOf a ≤ dateOf b) := ⟨fun _ _ _ h h' => le_trans h h'⟩
  exact List.sorted_insertionSort _ l

/-! ## Split-adjustment lemmas (C3) -/

theorem getSplitAdjustmentFactor_eq_prod (splits : List StockSplit) (priceDate : ℕ) :
    getSplitAdjustmentFactor splits priceDate
      = ((splits.filter (fun s => priceDate < s.date)).map (·.splitFactor)).prod := by
  suffices h : ∀ (a : ℚ), splits.foldl
      (fun factor split =>
        if priceDate < split.date then factor * split.splitFactor else factor) a
      = a * ((splits.filter (fun s => priceDate < s.date)).map (·.splitFactor)).prod by
    simpa [getSplitAdjustmentFactor] using h 1
  induction splits with
  | nil => simp
  | cons s rest ih =>
    intro a
    by_cases hs : priceDate < s.date
    · simp [hs, ih, mul_assoc]
    · simp [hs, ih]

theorem getSplitAdjustmentFactor_perm (splits splits' : List StockSplit)
    (h : List.Perm splits splits') (priceDate : ℕ) :
    getSplitAdjustmentFactor splits priceDate = getSplitAdjustmentFactor splits' priceDate := by
  rw [getSplitAdjustmentFactor_eq_prod, getSplitAdjustmentFactor_eq_prod]
  exact ((h.filter _).map _).prod_eq

theorem getSplitAdjustmentFactor_of_all_le (splits : List StockSplit) (priceDate : ℕ)
    (h : ∀ s ∈ splits, s.date ≤ priceDate) :
    getSplitAdjustmentFactor splits priceDate = 1 := by
  rw [getSplitAdjustmentFactor_eq_prod]
  have : splits.filter (fun s => priceDate < s.date) = [] := by
    refine List.filter_eq_nil_iff.mpr ?_
    intro s hs
    simpa using Nat.not_lt.mpr (h s hs)
  simp [this]

theorem mapGet?_foldl_set_of_not_written (f : StockPrice → ℚ) (d : ℕ)
    (l : List StockPrice) (m : JsMap ℕ ℚ) (h : ∀ r ∈ l, r.date ≠ d) :
    mapGet? (l.foldl (fun m p => mapSet m p.date (f p)) m) d = mapGet? m d := by
  induction l generalizing m with
  | nil => rfl
  | cons r rest ih =>
    have hr : r.date ≠ d := h r (by simp)
    have hrest : ∀ x ∈ rest, x.date ≠ d := fun x hx => h x (by simp [hx])
    simp only [List.foldl_cons]
    rw [ih _ hrest, mapGet?_mapSet_ne _ _ _ _ hr]

theorem mapGet?_buildUnadjustedPriceMap (prices : List StockPrice)
    (splits : List StockSplit) (sp : StockPrice)
    (hnd : (prices.map (·.date)).Nodup) (hmem : sp ∈ prices) :
    mapGet? (buildUnadjustedPriceMap prices splits) sp.date
      = some (sp.price * getSplitAdjustmentFactor (sortByDate StockSplit.date splits) sp.date) := by
  unfold buildUnadjustedPriceMap
  set f : StockPrice → ℚ :=
    fun p => p.price * getSplitAdjustmentFactor (sortByDate StockSplit.date splits) p.date with hf
  have main : ∀ (l : List StockPrice) (m : JsMap ℕ ℚ),
      (l.map (·.date)).Nodup → sp ∈ l →
      mapGet? (l.foldl (fun m p => mapSet m p.date (f p)) m) sp.date = some (f sp) := by
    intro l
    induction l with
    | nil => intro m _ h; cases h
    | cons q rest ih =>
      intro m hnd' hmem'
      rcases List.nodup_cons.mp hnd' with ⟨hq, hrest⟩
      rcases List.mem_cons.mp hmem' with h | h
      · subst h
        have hne : ∀ r ∈ rest, r.date ≠ sp.date := by
          intro r hr he
          refine hq ?_
          simp only [List.mem_map]
          exact ⟨r, hr, he⟩
        simp only [List.foldl_cons]
        rw [mapGet?_foldl_set_of_not_written f sp.date rest _ hne, mapGet?_mapSet_self]
      · exact ih (mapSet m q.date (f q)) hrest h
  exact main prices [] hnd hmem

/-- C3: split-adjustment round-trip.  For a true historical price `p > 0` on
date `d0` and a single split of factor `f > 0` dated strictly after `d0`,
looking up `d0` in the unadjusted price index built from the provider-style
adjusted series (which stores `p / f` at `d0`) returns exactly `p. `
Moreover the adjustment factor applied to any price is the product of the
factors of all splits dated strictly after that price's date, and a price
dated on or after every split gets factor `1`. -/
theorem split_adjustment_round_trip (prices : List StockPrice) (sp : StockPrice)
    (p f : ℚ) (d1 : ℕ) (tk : String)
    (hnd : (prices.map (·.date)).Nodup) (hmem : sp ∈ prices)
    (hp : 0 < p) (hf : 0 < f)
    (hsp : sp.price = p / f) (hd : sp.date < d1) :
    mapGet? (buildUnadjustedPriceMap prices [{ date := d1, ticker := tk, splitFactor := f }])
        sp.date = some p
    ∧ (∀ (splits : List StockSplit) (d : ℕ),
        getSplitAdjustmentFactor splits d
          = ((splits.filter (fun s => d < s.date)).map (·.splitFactor)).prod)
    ∧ (∀ (splits : List StockSplit) (d : ℕ), (∀ s ∈ splits, s.date ≤ d) →
        getSplitAdjustmentFactor splits d = 1) := by
  refine ⟨?_, getSplitAdjustmentFactor_eq_prod, getSplitAdjustmentFactor_of_all_le⟩
  rw [mapGet?_buildUnadjustedPriceMap _ _ _ hnd hmem]
  have hsort : sortByDate StockSplit.date [{ date := d1, ticker := tk, splitFactor := f }]
      = [{ date := d1, ticker := tk, splitFactor := f }] := rfl
  rw [hsort, getSplitAdjustmentFactor_eq_prod]
  have hfne : f ≠ 0 := ne_of_gt hf
  simp [List.filter_cons, hd, hsp, div_mul_cancel₀ _ hfne]

/-- Witness for C3 at the spec's scenario D numbers: provider stores `50` on
day `1` for a `2: 1` split on day `4`; the unadjusted index recovers `100`. -/
theorem split_adjustment_round_trip_witness :
    mapGet? (buildUnadjustedPriceMap [{ date := 1, price := 50, high := none }]
        [{ date := 4, ticker := "T", splitFactor := 2 }]) 1 = some 100
    ∧ (∀ (splits : List StockSplit) (d : ℕ),
        getSplitAdjustmentFactor splits d
          = ((splits.filter (fun s => d < s.date)).map (·.splitFactor)).prod)
    ∧ (∀ (splits : List StockSplit) (d : ℕ), (∀ s ∈ splits, s.date ≤ d) →
        getSplitAdjustmentFactor splits d = 1) :=
  split_adjustment_round_trip [{ date := 1, price := 50, high := none }]
    { date := 1, price := 50, high := none } 100 2 4 "T"
    (by simp) (by simp) (by norm_num) (by norm_num) (by norm_num) (by norm_num)

/-! ## Lookup lemmas (C4, C5)

Both lookups are characterised against the same specification: the last
entry of the series whose date is `≤ target`, with fallback to the head. -/

theorem scanBack_eq_getLast_filter (prices : List StockPrice) (target : ℕ) :
    scanBack prices target = (prices.filter (fun q => q.date ≤ target)).getLast? := by
  induction prices with
  | nil => rfl
  | cons p rest ih =>
    simp only [scanBack, ih, List.filter_cons]
    by_cases hp : p.date ≤ target
    · simp only [hp, decide_eq_true_eq, if_pos]
      cases hfil : rest.filter (fun q => decide (q.date ≤ target)) with
      | nil => simp
      | cons a l =>
        cases hq : (a :: l).getLast? with
        | none => exact absurd (List.getLast?_eq_none_iff.mp hq) (by simp)
        | some q => simp [List.getLast?_cons_cons, hq]
    · have hd : decide (p.date ≤ target) = false := by simp [hp]
      have hlt : target < p.date := by omega
      simp only [hd, Bool.false_eq_true, if_false]
      cases hfil : rest.filter (fun q => decide (q.date ≤ target)) with
      | nil => simp [hlt]
      | cons a l => cases hq : (a :: l).getLast? <;> simp [hq, hlt]

theorem dropWhile_dates_gt (prices : List StockPrice) (target : ℕ)
    (hs : prices.Pairwise (fun a b => a.date ≤ b.date)) :
    ∀ x ∈ prices.dropWhile (fun q => q.date ≤ target), ¬ x.date ≤ target := by
  induction prices with
  | nil => intro x hx; cases hx
  | cons p rest ih =>
    rcases List.pairwise_cons.mp hs with ⟨hhead, htail⟩
    by_cases hp : p.date ≤ target
    · simpa [List.dropWhile, hp] using ih htail
    · intro x hx
      have hd : decide (p.date ≤ target) = false := by simp [hp]
      simp only [List.dropWhile, hd] at hx
      rcases List.mem_cons.mp hx with h | h
      · subst h; exact hp
      · have h2 : p.date ≤ x.date := hhead x h
        omega

theorem filter_eq_takeWhile_of_sorted (prices : List StockPrice) (target : ℕ)
    (hs : prices.Pairwise (fun a b => a.date ≤ b.date)) :
    prices.filter (fun q => q.date ≤ target) = prices.takeWhile (fun q => q.date ≤ target) := by
  induction prices with
  | nil => rfl
  | cons p rest ih =>
    rcases List.pairwise_cons.mp hs with ⟨hhead, htail⟩
    by_cases hp : p.date ≤ target
    · simp [List.filter_cons, List.takeWhile, hp, ih htail]
    · have hnil : rest.filter (fun q => decide (q.date ≤ target)) = [] := by
        refine List.filter_eq_nil_iff.mpr ?_
        intro a ha
        have h2 : p.date ≤ a.date := hhead a ha
        simp only [decide_eq_true_eq]
        omega
      simp [List.filter_cons, List.takeWhile, hp, hnil]

theorem getLast?_eq_getD_of_ne_nil {α : Type} [Inhabited α] (l : List α) (h : l ≠ []) :
    l.getLast? = some (l.getD (l.length - 1) default) := by
  have hlen : l.length - 1 < l.length := by
    cases l with
    | nil => exact absurd rfl h
    | cons a t => simp
  rw [List.getLast?_eq_getElem?, List.getElem?_eq_getElem hlen,
    List.getD_eq_getElem?_getD, List.getElem?_eq_getElem hlen]
  rfl

theorem bsearchGo_invariant (prices : List StockPrice) (target : ℕ)
    (A B : List StockPrice) (hAB : prices = A ++ B)
    (hA : ∀ x ∈ A, x.date ≤ target) (hB : ∀ x ∈ B, ¬ x.date ≤ target) :
    ∀ (fuel left : Nat) (right : Int) (result : Option ℚ),
      (right + 1 - (left : Int)).toNat ≤ fuel →
      right < (prices.length : Int) →
      left ≤ A.length →
      (A.length : Int) ≤ right + 1 →
      (result = none ∧ left = 0 ∨
        0 < left ∧ left ≤ A.length ∧
          result = some ((prices.getD (left - 1) default).price)) →
      bsearchGo prices target fuel left right result = A.getLast?.map (·.price) := by
  have hexit : ∀ (left : Nat) (right : Int) (result : Option ℚ),
      right < (left : Int) → left ≤ A.length → (A.length : Int) ≤ right + 1 →
      (result = none ∧ left = 0 ∨
        0 < left ∧ left ≤ A.length ∧
          result = some ((prices.getD (left - 1) default).price)) →
      result = A.getLast?.map (·.price) := by
    intro left right result hrl hl hn hres
    have hlen : left = A.length := by omega
    rcases hres with ⟨hres, hl0⟩ | ⟨hpos, _, hres⟩
    · have : A = [] := by
        have : A.length = 0 := by omega
        exact List.length_eq_zero.mp this
      simp [hres, this]
    · have hane : A ≠ [] := by
        intro he
        rw [he] at hlen
        simp at hlen
        omega
      rw [getLast?_eq_getD_of_ne_nil A hane]
      have hidx : A.length - 1 < A.length := by
        cases A with
        | nil => exact absurd rfl hane
        | cons a t => simp
      have : prices.getD (left - 1) default = A.getD (A.length - 1) default := by
        rw [hAB, hlen]
        exact List.getD_append A B default (A.length - 1) hidx
      rw [hres, this]
      rfl
  intro fuel
  induction fuel with
  | zero =>
    intro left right result hfuel hr hl hn hres
    have hrl : right < (left : Int) := by omega
    simpa [bsearchGo] using hexit left right result hrl hl hn hres
  | succ fuel ih =>
    intro left right result hfuel hr hl hn hres
    by_cases hcond : (left : Int) ≤ right
    · have h0r : (0 : Int) ≤ right := le_trans (by omega) hcond
      set mid : Nat := (left + right.toNat) / 2 with hmid
      have hm1 : left ≤ mid := by omega
      have hm2 : (mid : Int) ≤ right := by omega
      have hm3 : mid < prices.length := by omega
      have hgo : bsearchGo prices target (fuel + 1) left right result
          = if (prices.getD mid default).date ≤ target then
              bsearchGo prices target fuel (mid + 1) right (some (prices.getD mid default).price)
            else
              bsearchGo prices target fuel left ((mid : Int) - 1) result := by
        simp only [bsearchGo, hcond, if_true]
      rw [hgo]
      by_cases hPm : (prices.getD mid default).date ≤ target
      · have hmA : mid < A.length := by
          by_contra hge
          push_neg at hge
          have hmem : prices.getD mid default ∈ B := by
            rw [hAB, List.getD_append_right A B default mid hge]
            have hlt : mid - A.length < B.length := by
              rw [hAB] at hm3
              simp only [List.length_append] at hm3
              omega
            rw [List.getD_eq_getElem?_getD, List.getElem?_eq_getElem hlt]
            exact List.getElem_mem hlt
          exact hB _ hmem hPm
        rw [if_pos hPm]
        exact ih (mid + 1) right (some (prices.getD mid default).price)
          (by omega) hr (by omega) hn
          (Or.inr ⟨by omega, by omega, by simp⟩)
      · have hmA : A.length ≤ mid := by
          by_contra hlt
          push_neg at hlt
          have hmem : prices.getD mid default ∈ A := by
            rw [hAB, List.getD_append A B default mid hlt]
            rw [List.getD_eq_getElem?_getD, List.getElem?_eq_getElem hlt]
            exact List.getElem_mem hlt
          exact hPm (hA _ hmem)
        rw [if_neg hPm]
        exact ih left ((mid : Int) - 1) result (by omega) (by omega) hl (by omega) hres
    · have hrl : right < (left : Int) := by omega
      have : bsearchGo prices target (fuel + 1) left right result = result := by
        simp [bsearchGo, hcond]
      rw [this]
      exact hexit left right result hrl hl hn hres

theorem getPriceOnOrBefore_eq_filtered (prices : List StockPrice) (target : ℕ)
    (hs : prices.Pairwise (fun a b => a.date ≤ b.date)) :
    getPriceOnOrBefore prices target
      = match (prices.filter (fun q => q.date ≤ target)).getLast? with
        | some q => some q.price
        | none => prices.head?.map (·.price) := by
  cases hP : prices with
  | nil => rfl
  | cons p0 rest =>
    rw [← hP]
    have hne : prices ≠ [] := by rw [hP]; simp
    have hsplit := (List.takeWhile_append_dropWhile
      (p := fun q => decide (q.date ≤ target)) (l := prices)).symm
    have hbs := bsearchGo_invariant prices target
      (prices.takeWhile (fun q => q.date ≤ target))
      (prices.dropWhile (fun q => q.date ≤ target)) hsplit
      (fun x hx => by simpa using List.mem_takeWhile_imp hx)
      (dropWhile_dates_gt prices target hs)
      (prices.length + 1) 0 ((prices.length : Int) - 1) none
      (by omega)
      (by omega)
      (by omega)
      (by
        have := (List.takeWhile_sublist (fun q : StockPrice => decide (q.date ≤ target))
          (l := prices)).length_le
        omega)
      (Or.inl ⟨rfl, rfl⟩)
    rw [filter_eq_takeWhile_of_sorted prices target hs]
    unfold getPriceOnOrBefore
    rw [hP] at hbs ⊢
    rw [← hP] at hbs
    simp only [← hP]
    rw [hbs]
    cases hlast : (prices.takeWhile (fun q => q.date ≤ target)).getLast? with
    | none => simp [hP]
    | some q => simp [hP]

theorem getPriceOnDate_eq_filtered (prices : List StockPrice) (target : ℕ) :
    getPriceOnDate prices target
      = match (prices.filter (fun q => q.date ≤ target)).getLast? with
        | some q => some q.price
        | none => prices.head?.map (·.price) := by
  unfold getPriceOnDate findPriceOnDate
  rw [scanBack_eq_getLast_filter]
  cases h : (prices.filter (fun q => decide (q.date ≤ target))).getLast? <;> simp [h]

/-- C4: for every price series ascending by date and every target date, the
linear backward scan (`getPriceOnDate`, Date-object comparison) and the
binary search (`getPriceOnOrBefore`, string comparison — both comparisons
coincide with numeric order on ISO dates) return identical results,
including the clamp to the first entry's price when the target precedes all
entries, and `null` exactly for an empty series. -/
theorem linear_and_binary_lookup_agree (prices : List StockPrice) (target : ℕ)
    (hs : prices.Pairwise (fun a b => a.date ≤ b.date)) :
    getPriceOnDate prices target = getPriceOnOrBefore prices target
    ∧ ((∀ q ∈ prices, target < q.date) →
        getPriceOnDate prices target = prices.head?.map (·.price))
    ∧ (getPriceOnDate prices target = none ↔ prices = []) := by
  have h1 := getPriceOnDate_eq_filtered prices target
  have h2 := getPriceOnOrBefore_eq_filtered prices target hs
  refine ⟨by rw [h1, h2], ?_, ?_⟩
  · intro hall
    have hfil : prices.filter (fun q => q.date ≤ target) = [] := by
      refine List.filter_eq_nil_iff.mpr ?_
      intro a ha
      have h3 := hall a ha
      simp only [decide_eq_true_eq]
      omega
    rw [h1, hfil]
    rfl
  · rw [h1]
    cases prices with
    | nil => simp
    | cons p rest =>
      cases hl : ((p :: rest).filter (fun q => q.date ≤ target)).getLast? <;> simp [hl]

/-- Witness for C4 on a concrete two-entry ascending series. -/
theorem linear_and_binary_lookup_agree_witness :
    ([{ date := 10, price := 1, high := none }, { date := 20, price := 2, high := none }] :
        List StockPrice).Pairwise (fun a b => a.date ≤ b.date)
    ∧ (getPriceOnDate
          [{ date := 10, price := 1, high := none }, { date := 20, price := 2, high := none }] 15
        = getPriceOnOrBefore
          [{ date := 10, price := 1, high := none }, { date := 20, price := 2, high := none }] 15
      ∧ ((∀ q ∈ ([{ date := 10, price := 1, high := none },
              { date := 20, price := 2, high := none }] : List StockPrice), 15 < q.date) →
          getPriceOnDate
            [{ date := 10, price := 1, high := none }, { date := 20, price := 2, high := none }] 15
          = ([{ date := 10, price := 1, high := none },
              { date := 20, price := 2, high := none }] : List StockPrice).head?.map (·.price))
      ∧ (getPriceOnDate
            [{ date := 10, price := 1, high := none }, { date := 20, price := 2, high := none }] 15
            = none
          ↔ ([{ date := 10, price := 1, high := none },
              { date := 20, price := 2, high := none }] : List StockPrice) = [])) := by
  have hs : ([{ date := 10, price := 1, high := none },
      { date := 20, price := 2, high := none }] : List StockPrice).Pairwise
      (fun a b => a.date ≤ b.date) := by
    simp [List.pairwise_cons]
  exact ⟨hs, linear_and_binary_lookup_agree _ 15 hs⟩

/-- C5: for every non-empty ascending price series and target date strictly
before the first entry's date, the on-or-before lookup clamps to the first
entry's price; it returns `null` exactly for an empty series. -/
theorem lookup_clamps_to_first (prices : List StockPrice) (target : ℕ)
    (hs : prices.Pairwise (fun a b => a.date ≤ b.date)) (hne : prices ≠ [])
    (hbefore : target < (prices.head hne).date) :
    getPriceOnOrBefore prices target = some ((prices.head hne).price)
    ∧ (∀ (l : List StockPrice) (d : ℕ), (getPriceOnOrBefore l d = none ↔ l = [])) := by
  constructor
  · have hall : ∀ q ∈ prices, target < q.date := by
      intro q hq
      cases prices with
      | nil => cases hq
      | cons p rest =>
        rcases List.mem_cons.mp hq with h | h
        · subst h; exact hbefore
        · have h2 : p.date ≤ q.date := (List.pairwise_cons.mp hs).1 q h
          have h3 : target < p.date := hbefore
          omega
    rw [getPriceOnOrBefore_eq_filtered prices target hs]
    have hfil : prices.filter (fun q => q.date ≤ target) = [] := by
      refine List.filter_eq_nil_iff.mpr ?_
      intro a ha
      have h3 := hall a ha
      simp only [decide_eq_true_eq]
      omega
    rw [hfil]
    cases prices with
    | nil => exact absurd rfl hne
    | cons p rest => rfl
  · intro l d
    cases l with
    | nil => simp [getPriceOnOrBefore]
    | cons p rest =>
      unfold getPriceOnOrBefore
      cases hb : bsearchGo (p :: rest) d ((p :: rest).length + 1) 0
          (((p :: rest).length : Int) - 1) none <;> simp [hb]

/-- Witness for C5: a target before the whole series clamps to the first
price. -/
theorem lookup_clamps_to_first_witness :
    getPriceOnOrBefore
        [{ date := 10, price := 7, high := none }, { date := 20, price := 9, high := none }] 5
      = some 7
    ∧ (∀ (l : List StockPrice) (d : ℕ), (getPriceOnOrBefore l d = none ↔ l = [])) :=
  lookup_clamps_to_first
    [{ date := 10, price := 7, high := none }, { date := 20, price := 9, high := none }] 5
    (by simp [List.pairwise_cons]) (by simp) (by norm_num)

/-! ## Breakdown lemmas (C1, C10) -/

theorem nodupKeys_aggApply (spy : List StockPrice) (agg : JsMap String AggEntry)
    (trade : Trade) (h : (agg.map Prod.fst).Nodup) :
    ((aggApply spy agg trade).map Prod.fst).Nodup := by
  cases ht : trade.type <;>
    (simp only [aggApply, ht]; exact nodupKeys_mapSet _ _ _ h)

theorem nodupKeys_aggregateTrades (spy : List StockPrice) (trades : List Trade) :
    ((aggregateTrades spy trades).map Prod.fst).Nodup := by
  suffices h : ∀ (l : List Trade) (m : JsMap String AggEntry),
      (m.map Prod.fst).Nodup → ((l.foldl (aggApply spy) m).map Prod.fst).Nodup by
    exact h trades [] (by simp)
  intro l
  induction l with
  | nil => intro m hm; simpa using hm
  | cons tr rest ih =>
    intro m hm
    exact ih _ (nodupKeys_aggApply spy m tr hm)

theorem mapGet?_aggApply_ne (spy : List StockPrice) (agg : JsMap String AggEntry)
    (trade : Trade) (t : String) (h : trade.ticker ≠ t) :
    mapGet? (aggApply spy agg trade) t = mapGet? agg t := by
  cases ht : trade.type <;>
    (simp only [aggApply, ht]; exact mapGet?_mapSet_ne _ _ _ _ h)

theorem mapGet?_aggApply_self (spy : List StockPrice) (agg : JsMap String AggEntry)
    (trade : Trade) : ∃ e, mapGet? (aggApply spy agg trade) trade.ticker = some e := by
  cases ht : trade.type <;>
    (simp only [aggApply, ht]; exact ⟨_, mapGet?_mapSet_self _ _ _⟩)

theorem mapGet?_foldl_aggApply_none_iff (spy : List StockPrice) :
    ∀ (l : List Trade) (m : JsMap String AggEntry) (t : String),
      mapGet? (l.foldl (aggApply spy) m) t = none
        ↔ (mapGet? m t = none ∧ ∀ tr ∈ l, tr.ticker ≠ t) := by
  intro l
  induction l with
  | nil => intro m t; simp
  | cons tr rest ih =>
    intro m t
    simp only [List.foldl_cons]
    rw [ih]
    by_cases hti : tr.ticker = t
    · subst hti
      rcases mapGet?_aggApply_self spy m tr with ⟨e, he⟩
      rw [he]
      simp
    · rw [mapGet?_aggApply_ne spy m tr t hti]
      constructor
      · rintro ⟨h1, h2⟩
        exact ⟨h1, by
          intro x hx
          rcases List.mem_cons.mp hx with h | h
          · subst h; exact hti
          · exact h2 x h⟩
      · rintro ⟨h1, h2⟩
        exact ⟨h1, fun x hx => h2 x (by simp [hx])⟩

theorem buyDatesOf_append_singleton (l : List Trade) (tr : Trade) (t : String) :
    buyDatesOf (l ++ [tr]) t
      = buyDatesOf l t
        ++ (if tr.ticker = t ∧ tr.type = TradeType.buy then [tr.date] else []) := by
  unfold buyDatesOf
  rw [List.filter_append, List.map_append]
  congr 1
  by_cases h : tr.ticker = t ∧ tr.type = TradeType.buy <;> simp [List.filter_cons, h]

theorem minDate?_append_singleton (l : List ℕ) (d : ℕ) :
    minDate? (l ++ [d])
      = match minDate? l with | none => some d | some m => some (min m d) := by
  unfold minDate?
  rw [List.foldl_append]
  rfl

theorem firstTradeOf_append_singleton (l : List Trade) (tr : Trade) (t : String) :
    firstTradeOf (l ++ [tr]) t
      = match firstTradeOf l t with
        | some x => some x
        | none => if tr.ticker = t then some tr else none := by
  unfold firstTradeOf
  rw [List.filter_append]
  cases hf : l.filter (fun x => decide (x.ticker = t)) with
  | nil => by_cases h : tr.ticker = t <;> simp [List.filter_cons, h]
  | cons a l2 => simp

theorem aggregateTrades_append_singleton (spy : List StockPrice) (l : List Trade)
    (tr : Trade) :
    aggregateTrades spy (l ++ [tr]) = aggApply spy (aggregateTrades spy l) tr := by
  unfold aggregateTrades
  rw [List.foldl_append]
  rfl

theorem aggregateTrades_marker (spy : List StockPrice) (trades : List Trade)
    (hfirst : ∀ (t : String) (tr : Trade),
      firstTradeOf trades t = some tr → tr.type = TradeType.buy) :
    ∀ (t : String) (e : AggEntry), mapGet? (aggregateTrades spy trades) t = some e →
      firstBuyDateSpec trades t = some e.firstBuyDate := by
  induction trades using List.reverseRecOn with
  | nil => intro t e h; cases h
  | append_singleton l tr ih =>
    have hfl : ∀ (t' : String) (tr' : Trade),
        firstTradeOf l t' = some tr' → tr'.type = TradeType.buy := by
      intro t' tr' h
      refine hfirst t' tr' ?_
      rw [firstTradeOf_append_singleton, h]
    intro t e hget
    rw [aggregateTrades_append_singleton] at hget
    by_cases hti : tr.ticker = t
    · subst hti
      cases hcur : mapGet? (aggregateTrades spy l) tr.ticker with
      | none =>
        have hnone : ∀ x ∈ l, x.ticker ≠ tr.ticker := by
          have h0 : mapGet? (l.foldl (aggApply spy) ([] : JsMap String AggEntry))
              tr.ticker = none := hcur
          exact ((mapGet?_foldl_aggApply_none_iff spy l [] tr.ticker).mp h0).2
        have hflnone : firstTradeOf l tr.ticker = none := by
          unfold firstTradeOf
          have hfil : l.filter (fun x => decide (x.ticker = tr.ticker)) = [] := by
            refine List.filter_eq_nil_iff.mpr ?_
            intro a ha
            simpa using hnone a ha
          simp [hfil]
        have hbt : tr.type = TradeType.buy := by
          apply hfirst tr.ticker tr
          rw [firstTradeOf_append_singleton, hflnone]
          simp
        simp only [aggApply, hcur, hbt, Option.getD_none] at hget
        rw [mapGet?_mapSet_self] at hget
        obtain rfl := Option.some.inj hget
        have hbl : buyDatesOf l tr.ticker = [] := by
          unfold buyDatesOf
          have hfil : l.filter
              (fun x => decide (x.ticker = tr.ticker ∧ x.type = TradeType.buy)) = [] := by
            refine List.filter_eq_nil_iff.mpr ?_
            intro a ha
            simp only [decide_eq_true_eq, not_and]
            intro hticker
            exact absurd hticker (hnone a ha)
          rw [hfil]
          rfl
        unfold firstBuyDateSpec
        rw [buyDatesOf_append_singleton, hbl]
        simp [hbt, minDate?]
      | some ecur =>
        have hspec := ih hfl tr.ticker ecur hcur
        unfold firstBuyDateSpec at hspec
        cases hbt : tr.type with
        | sell =>
          simp only [aggApply, hcur, hbt, Option.getD_some] at hget
          rw [mapGet?_mapSet_self] at hget
          obtain rfl := Option.some.inj hget
          unfold firstBuyDateSpec
          rw [buyDatesOf_append_singleton]
          have hc : ¬ (tr.ticker = tr.ticker ∧ tr.type = TradeType.buy) := by simp [hbt]
          rw [if_neg hc, List.append_nil, hspec]
        | buy =>
          simp only [aggApply, hcur, hbt, Option.getD_some] at hget
          rw [mapGet?_mapSet_self] at hget
          obtain rfl := Option.some.inj hget
          unfold firstBuyDateSpec
          rw [buyDatesOf_append_singleton]
          have hc : tr.ticker = tr.ticker ∧ tr.type = TradeType.buy := ⟨rfl, hbt⟩
          rw [if_pos hc, minDate?_append_singleton, hspec]
          simp only [Option.some.injEq]
          rw [Nat.min_def]
          split_ifs <;> omega
    · rw [mapGet?_aggApply_ne spy _ tr t hti] at hget
      have hspec := ih hfl t e hget
      unfold firstBuyDateSpec at hspec ⊢
      rw [buyDatesOf_append_singleton]
      have : ¬ (tr.ticker = t ∧ tr.type = TradeType.buy) := fun h => hti h.1
      rw [if_neg this, List.append_nil]
      exact hspec

theorem mem_foldl_rowStep (stockPrices : JsMap String (List StockPrice)) (cs : ℚ) :
    ∀ (l : List (String × AggEntry)) (acc : List StockBreakdownData)
      (b : StockBreakdownData), b ∈ l.foldl (rowStep stockPrices cs) acc →
      b ∈ acc ∨ ∃ p ∈ l, b.ticker = p.1 ∧ b.buyDate = p.2.firstBuyDate ∧
        ∃ tp, mapGet? stockPrices p.1 = some tp ∧ tp ≠ [] := by
  intro l
  induction l with
  | nil =>
    intro acc b hb
    exact Or.inl hb
  | cons p rest ih =>
    intro acc b hb
    rcases ih _ b hb with hacc | ⟨q, hq, hrest⟩
    · by_cases h1 : p.2.totalShares ≤ 0
      · rw [show rowStep stockPrices cs acc p = acc by simp [rowStep, h1]] at hacc
        exact Or.inl hacc
      · cases hget : mapGet? stockPrices p.1 with
        | none =>
          rw [show rowStep stockPrices cs acc p = acc by simp [rowStep, h1, hget]] at hacc
          exact Or.inl hacc
        | some tp =>
          by_cases h2 : tp = []
          · rw [show rowStep stockPrices cs acc p = acc by
              simp [rowStep, h1, hget, h2]] at hacc
            exact Or.inl hacc
          · have hstep : rowStep stockPrices cs acc p = acc ++
                [{ ticker := p.1
                   shares := round6 p.2.totalShares
                   buyDate := p.2.firstBuyDate
                   buyPrice := round2 (if 0 < p.2.totalShares then
                     (max 0 p.2.totalCost) / p.2.totalShares else 0)
                   currentPrice := getLatestPrice tp
                   currentValue := round2 (p.2.totalShares * getLatestPrice tp)
                   spyShares := round2 (max 0 p.2.totalSpyShares)
                   spyCurrentValue := round2 ((max 0 p.2.totalSpyShares) * cs)
                   gain := round2 (p.2.totalShares * getLatestPrice tp
                     - max 0 p.2.totalCost)
                   spyGain := round2 ((max 0 p.2.totalSpyShares) * cs
                     - max 0 p.2.totalCost)
                   difference := round2 ((p.2.totalShares * getLatestPrice tp
                     - max 0 p.2.totalCost)
                     - ((max 0 p.2.totalSpyShares) * cs - max 0 p.2.totalCost)) }] := by
              simp [rowStep, h1, hget, h2]
            rw [hstep] at hacc
            rcases List.mem_append.mp hacc with h | h
            · exact Or.inl h
            · refine Or.inr ⟨p, by simp, ?_, ?_, tp, hget, h2⟩
              · rcases List.mem_singleton.mp h with rfl
                rfl
              · rcases List.mem_singleton.mp h with rfl
                rfl
    · exact Or.inr ⟨q, by simp [hq], hrest⟩

theorem mem_calculateStockBreakdown (trades : List Trade)
    (stockPrices : JsMap String (List StockPrice)) (spyPrices : List StockPrice)
    (b : StockBreakdownData) (hb : b ∈ calculateStockBreakdown trades stockPrices spyPrices) :
    ∃ e, mapGet? (aggregateTrades spyPrices trades) b.ticker = some e ∧
      b.buyDate = e.firstBuyDate ∧
      ∃ tp, mapGet? stockPrices b.ticker = some tp ∧ tp ≠ [] := by
  have hb' : b ∈ List.insertionSort (fun a b => b.difference ≤ a.difference)
      (breakdownRows stockPrices (getLatestPrice spyPrices)
        (aggregateTrades spyPrices trades)) := by
    simpa only [calculateStockBreakdown] using hb
  have hmem : b ∈ breakdownRows stockPrices (getLatestPrice spyPrices)
      (aggregateTrades spyPrices trades) :=
    (List.perm_insertionSort (fun a b => b.difference ≤ a.difference) _).mem_iff.mp hb'
  rcases mem_foldl_rowStep stockPrices (getLatestPrice spyPrices) _ [] b hmem with
    h | ⟨p, hp, ht, hd, tp, hget, hne⟩
  · cases h
  · have := mapGet?_of_mem (aggregateTrades spyPrices trades) p
      (nodupKeys_aggregateTrades spyPrices trades) hp
    exact ⟨p.2, by rw [ht]; exact this, hd, tp, by rw [ht]; exact hget, hne⟩

/-- C1 (amended): provided each ticker's first trade in input order is a
buy, `calculateStockBreakdown` reports as `firstBuyDate` exactly the
earliest date among that ticker's buy trades, and sells never influence the
marker.  (Unconditionally, a sell that precedes every buy of its ticker in
the input list initialises the marker with its own date — see the
counterexample.) -/
theorem firstBuyDate_is_min_buy_date (trades : List Trade)
    (stockPrices : JsMap String (List StockPrice)) (spyPrices : List StockPrice)
    (hfirst : ∀ (t : String) (tr : Trade),
      firstTradeOf trades t = some tr → tr.type = TradeType.buy) :
    ∀ b ∈ calculateStockBreakdown trades stockPrices spyPrices,
      firstBuyDateSpec trades b.ticker = some b.buyDate := by
  intro b hb
  rcases mem_calculateStockBreakdown trades stockPrices spyPrices b hb with
    ⟨e, hget, hbd, _⟩
  rw [aggregateTrades_marker spyPrices trades hfirst b.ticker e hget, hbd]

/-- Witness for the amended C1: a single buy of ticker `"A"`. -/
theorem firstBuyDate_is_min_buy_date_witness :
    (∀ (t : String) (tr : Trade),
        firstTradeOf
            [{ ticker := "A", date := 2, shares := 1, price := some 5, type := .buy }] t
          = some tr → tr.type = TradeType.buy)
    ∧ ∀ b ∈ calculateStockBreakdown
          [{ ticker := "A", date := 2, shares := 1, price := some 5, type := .buy }]
          [("A", [{ date := 2, price := 5, high := none }])]
          [{ date := 2, price := 380, high := none }],
        firstBuyDateSpec
            [{ ticker := "A", date := 2, shares := 1, price := some 5, type := .buy }]
            b.ticker
          = some b.buyDate := by
  have hfirst : ∀ (t : String) (tr : Trade),
      firstTradeOf
          [{ ticker := "A", date := 2, shares := 1, price := some 5, type := .buy }] t
        = some tr → tr.type = TradeType.buy := by
    intro t tr h
    unfold firstTradeOf at h
    by_cases ht : ("A" : String) = t
    · rw [List.filter_cons, if_pos (by simpa using ht), List.filter_nil,
        List.head?_cons] at h
      obtain rfl := Option.some.inj h
      rfl
    · rw [List.filter_cons, if_neg (by simpa using ht), List.filter_nil] at h
      cases h
  exact ⟨hfirst, firstBuyDate_is_min_buy_date _ _ _ hfirst⟩

/-- Counterexample to C1 as stated: with a sell dated day 1 preceding the
only buy (day 2) in input order, the reported `buyDate` is the sell's date
(1), not the earliest buy date (2). -/
theorem firstBuyDate_counterexample :
    ((calculateStockBreakdown
        [{ ticker := "A", date := 1, shares := 5, price := some 100, type := .sell },
         { ticker := "A", date := 2, shares := 10, price := some 100, type := .buy }]
        [("A", [{ date := 1, price := 100, high := none }])]
        [{ date := 1, price := 380, high := none }]).map
      (fun b => (b.ticker, b.buyDate)) = [("A", 1)])
    ∧ firstBuyDateSpec
        [{ ticker := "A", date := 1, shares := 5, price := some 100, type := .sell },
         { ticker := "A", date := 2, shares := 10, price := some 100, type := .buy }] "A"
      = some 2
    ∧ (1 : ℕ) ≠ 2 := by
  refine ⟨?_, by decide, by norm_num⟩
  norm_num [calculateStockBreakdown, breakdownRows, aggregateTrades, aggApply, rowStep,
    mapGet?, mapSet, getPriceOnDate, findPriceOnDate, scanBack, getLatestPrice,
    round2, round6, jsRound, List.insertionSort, List.orderedInsert]

/-- C10: a ticker with strictly positive aggregated net shares whose entry
in the per-ticker price map is missing or empty is silently dropped from
`calculateStockBreakdown`'s output. -/
theorem missing_price_ticker_dropped (trades : List Trade)
    (stockPrices : JsMap String (List StockPrice)) (spyPrices : List StockPrice)
    (t : String) (hshares : 0 < netSharesOf trades t)
    (hmissing : mapGet? stockPrices t = none ∨ mapGet? stockPrices t = some []) :
    ∀ b ∈ calculateStockBreakdown trades stockPrices spyPrices, b.ticker ≠ t := by
  intro b hb hbt
  rcases mem_calculateStockBreakdown trades stockPrices spyPrices b hb with
    ⟨e, _, _, tp, hget, hne⟩
  rw [hbt] at hget
  rcases hmissing with h | h
  · rw [h] at hget
    cases hget
  · rw [h] at hget
    exact hne (Option.some.inj hget).symm

/-- Witness for C10: one buy of ticker `"A"` with an empty price map. -/
theorem missing_price_ticker_dropped_witness :
    0 < netSharesOf
        [{ ticker := "A", date := 1, shares := 1, price := some 100, type := .buy }] "A"
    ∧ ∀ b ∈ calculateStockBreakdown
        [{ ticker := "A", date := 1, shares := 1, price := some 100, type := .buy }]
        [] [{ date := 1, price := 380, high := none }], b.ticker ≠ "A" := by
  have h1 : 0 < netSharesOf
      [{ ticker := "A", date := 1, shares := 1, price := some 100, type := .buy }] "A" := by
    norm_num [netSharesOf, List.filter_cons]
  exact ⟨h1, missing_price_ticker_dropped _ _ _ "A" h1 (Or.inl rfl)⟩

/-! ## Time-series loop lemmas (C2, C6, C7) -/

theorem sorted_filter_eq_takeWhile {α : Type} (dateOf : α → ℕ) (l : List α) (d : ℕ)
    (hs : l.Pairwise (fun a b => dateOf a ≤ dateOf b)) :
    l.filter (fun x => dateOf x ≤ d) = l.takeWhile (fun x => dateOf x ≤ d) := by
  induction l with
  | nil => rfl
  | cons p rest ih =>
    rcases List.pairwise_cons.mp hs with ⟨hhead, htail⟩
    by_cases hp : dateOf p ≤ d
    · simp [List.filter_cons, List.takeWhile, hp, ih htail]
    · have hnil : rest.filter (fun x => decide (dateOf x ≤ d)) = [] := by
        refine List.filter_eq_nil_iff.mpr ?_
        intro a ha
        have h2 : dateOf p ≤ dateOf a := hhead a ha
        simp only [decide_eq_true_eq]
        omega
      simp [List.filter_cons, List.takeWhile, hp, hnil]

theorem processTrades_remTrades (spy : List StockPrice) (d : ℕ) :
    ∀ (trs : List Trade) (sh : JsMap String ℚ) (a c : ℚ),
      (processTrades spy d trs sh a c).remTrades
        = trs.dropWhile (fun tr => tr.date ≤ d) := by
  intro trs
  induction trs with
  | nil => intro sh a c; rfl
  | cons tr rest ih =>
    intro sh a c
    by_cases htr : tr.date ≤ d
    · have hd : decide (tr.date ≤ d) = true := by simpa using htr
      cases ht : tr.type <;>
        simp [processTrades, htr, ht, List.dropWhile_cons, hd, ih]
    · have hd : decide (tr.date ≤ d) = false := by simpa using htr
      simp [processTrades, htr, List.dropWhile_cons, hd]

theorem processTrades_tradeCostBasis (spy : List StockPrice) (d : ℕ) :
    ∀ (trs : List Trade) (sh : JsMap String ℚ) (a c : ℚ),
      (processTrades spy d trs sh a c).tradeCostBasis
        = c + ((trs.takeWhile (fun tr => tr.date ≤ d)).map signedTradeAmount).sum := by
  intro trs
  induction trs with
  | nil => intro sh a c; simp [processTrades]
  | cons tr rest ih =>
    intro sh a c
    by_cases htr : tr.date ≤ d
    · have hd : decide (tr.date ≤ d) = true := by simpa using htr
      cases ht : tr.type <;>
        simp [processTrades, htr, ht, List.takeWhile, hd, ih, signedTradeAmount] <;>
        ring
    · have hd : decide (tr.date ≤ d) = false := by simpa using htr
      simp [processTrades, htr, List.takeWhile, hd]

theorem processTrades_tradeBasedSpyShares (spy : List StockPrice) (d : ℕ) :
    ∀ (trs : List Trade) (sh : JsMap String ℚ) (a c : ℚ),
      (processTrades spy d trs sh a c).tradeBasedSpyShares
        = a + ((trs.takeWhile (fun tr => tr.date ≤ d)).map (tradeSpyChange spy)).sum := by
  intro trs
  induction trs with
  | nil => intro sh a c; simp [processTrades]
  | cons tr rest ih =>
    intro sh a c
    by_cases htr : tr.date ≤ d
    · have hd : decide (tr.date ≤ d) = true := by simpa using htr
      cases ht : tr.type <;>
        simp [processTrades, htr, ht, List.takeWhile, hd, ih] <;>
        ring
    · have hd : decide (tr.date ≤ d) = false := by simpa using htr
      simp [processTrades, htr, List.takeWhile, hd]

theorem processTrades_comp (spy : List StockPrice) (d d' : ℕ) (hdd : d ≤ d') :
    ∀ (trs : List Trade) (sh : JsMap String ℚ) (a c : ℚ),
      trs.Pairwise (fun x y => x.date ≤ y.date) →
      processTrades spy d' (processTrades spy d trs sh a c).remTrades
          (processTrades spy d trs sh a c).shares
          (processTrades spy d trs sh a c).tradeBasedSpyShares
          (processTrades spy d trs sh a c).tradeCostBasis
        = processTrades spy d' trs sh a c := by
  intro trs
  induction trs with
  | nil => intro sh a c _; rfl
  | cons tr rest ih =>
    intro sh a c hs
    rcases List.pairwise_cons.mp hs with ⟨_, htail⟩
    by_cases htr : tr.date ≤ d
    · have htr' : tr.date ≤ d' := le_trans htr hdd
      cases ht : tr.type <;>
        (simp only [processTrades, htr, htr', if_pos, ht]; exact ih _ _ _ htail)
    · simp only [processTrades, htr, if_neg]
      rfl

theorem tsLoop_cons (env : TSEnv) (sp : StockPrice) (rest : List StockPrice) (s : TSState) :
    tsLoop env (sp :: rest) s
      = (match dayPoint env s sp with
         | some pt => pt :: tsLoop env rest (processTrades env.spyPrices sp.date s.remTrades
             s.shares s.tradeBasedSpyShares s.tradeCostBasis)
         | none => tsLoop env rest (processTrades env.spyPrices sp.date s.remTrades
             s.shares s.tradeBasedSpyShares s.tradeCostBasis)) := by
  simp only [tsLoop, dayPoint]
  by_cases hcb : 0 <
      (if env.useCashFlowBasis then
        (env.sortedCashFlows.filter (fun cf => cf.date ≤ sp.date)).foldl
          (fun sum cf => sum + cf.amount) 0
      else max 0 (processTrades env.spyPrices sp.date s.remTrades s.shares
        s.tradeBasedSpyShares s.tradeCostBasis).tradeCostBasis) <;>
    simp [hcb]

theorem tsLoop_eq_filterMap (env : TSEnv) :
    ∀ (spyRest : List StockPrice) (s : TSState),
      spyRest.Pairwise (fun a b => a.date ≤ b.date) →
      s.remTrades.Pairwise (fun x y => x.date ≤ y.date) →
      tsLoop env spyRest s = spyRest.filterMap (dayPoint env s) := by
  intro spyRest
  induction spyRest with
  | nil => intro s _ _; rfl
  | cons sp rest ih =>
    intro s hspy htr
    rcases List.pairwise_cons.mp hspy with ⟨hhead, htail⟩
    have hrem : (processTrades env.spyPrices sp.date s.remTrades s.shares
        s.tradeBasedSpyShares s.tradeCostBasis).remTrades.Pairwise
        (fun x y => x.date ≤ y.date) := by
      rw [processTrades_remTrades]
      exact htr.sublist (List.dropWhile_sublist _)
    have hih := ih (processTrades env.spyPrices sp.date s.remTrades s.shares
      s.tradeBasedSpyShares s.tradeCostBasis) htail hrem
    have hcongr : ∀ sp' ∈ rest,
        dayPoint env (processTrades env.spyPrices sp.date s.remTrades s.shares
          s.tradeBasedSpyShares s.tradeCostBasis) sp' = dayPoint env s sp' := by
      intro sp' hsp'
      have hdd : sp.date ≤ sp'.date := hhead sp' hsp'
      simp only [dayPoint]
      rw [processTrades_comp env.spyPrices sp.date sp'.date hdd s.remTrades s.shares
        s.tradeBasedSpyShares s.tradeCostBasis htr]
    rw [tsLoop_cons, hih, List.filterMap_congr hcongr, List.filterMap_cons]
    cases dayPoint env s sp <;> rfl

theorem calculatePortfolioTimeSeries_eq_loop (trades : List Trade)
    (stockPrices : JsMap String (List StockPrice)) (spyPrices : List StockPrice)
    (cashFlows : List CashFlow) (splits : JsMap String (List StockSplit)) :
    calculatePortfolioTimeSeries trades stockPrices spyPrices cashFlows splits
      = if trades = [] ∨ spyPrices = [] then []
        else tsLoop (tsEnv stockPrices spyPrices cashFlows splits) spyPrices
          (tsInit trades) := rfl

theorem dayPoint_emit (env : TSEnv) (s : TSState) (sp : StockPrice) :
    dayPoint env s sp
      = if 0 < runCostBasis env s sp.date then
          some { date := sp.date
                 portfolioValue := round2 (portfolioValueAt env.priceMaps env.stockPrices
                   env.splits (processTrades env.spyPrices sp.date s.remTrades s.shares
                     s.tradeBasedSpyShares s.tradeCostBasis).shares sp.date)
                 counterfactualValue := round2 ((max 0 (runCfShares env s sp.date)) * sp.price)
                 costBasis := round2 (runCostBasis env s sp.date)
                 portfolioReturn := round2 ((portfolioValueAt env.priceMaps env.stockPrices
                   env.splits (processTrades env.spyPrices sp.date s.remTrades s.shares
                     s.tradeBasedSpyShares s.tradeCostBasis).shares sp.date
                   - runCostBasis env s sp.date) / runCostBasis env s sp.date * 100)
                 counterfactualReturn := round2 (((max 0 (runCfShares env s sp.date)) * sp.price
                   - runCostBasis env s sp.date) / runCostBasis env s sp.date * 100) }
        else none := rfl

theorem useCashFlowBasis_iff (cashFlows : List CashFlow) :
    useCashFlowBasis cashFlows = true ↔ 0 < cashFlowTotal cashFlows := by
  simp only [useCashFlowBasis, cashFlowTotal, foldl_add_amount, zero_add,
    decide_eq_true_eq]

theorem useDepositBasis_iff (cashFlows : List CashFlow) :
    useDepositBasis cashFlows = true
      ↔ ∃ cf ∈ cashFlows, cf.type = CashFlowType.deposit := by
  simp [useDepositBasis, List.filter_eq_nil_iff]

theorem runCostBasis_init (trades : List Trade)
    (stockPrices : JsMap String (List StockPrice)) (spyPrices : List StockPrice)
    (cashFlows : List CashFlow) (splits : JsMap String (List StockSplit)) (d : ℕ) :
    runCostBasis (tsEnv stockPrices spyPrices cashFlows splits) (tsInit trades) d
      = costBasisAt trades cashFlows d := by
  unfold runCostBasis costBasisAt
  simp only [tsEnv, tsInit]
  by_cases h : 0 < cashFlowTotal cashFlows
  · rw [if_pos ((useCashFlowBasis_iff cashFlows).mpr h), if_pos h]
    show ((sortByDate CashFlow.date cashFlows).filter (fun cf => cf.date ≤ d)).foldl
      (fun sum cf => sum + cf.amount) 0 = _
    rw [foldl_add_amount, zero_add]
    unfold cashFlowsUpTo
    exact ((((sortByDate_perm CashFlow.date cashFlows).filter _)).map _).sum_eq
  · have hflag : useCashFlowBasis cashFlows = false := by
      cases hb : useCashFlowBasis cashFlows
      · rfl
      · exact absurd ((useCashFlowBasis_iff cashFlows).mp hb) h
    rw [if_neg (by simp [hflag]), if_neg h]
    show max 0 (processTrades spyPrices d (sortByDate Trade.date trades) [] 0
      0).tradeCostBasis = _
    rw [processTrades_tradeCostBasis, zero_add]
    rw [← sorted_filter_eq_takeWhile Trade.date (sortByDate Trade.date trades) d
      (sortByDate_sorted Trade.date trades)]
    unfold tradesTotalUpTo
    congr 1
    exact (((sortByDate_perm Trade.date trades).filter _).map _).sum_eq

theorem runCfShares_init (trades : List Trade)
    (stockPrices : JsMap String (List StockPrice)) (spyPrices : List StockPrice)
    (cashFlows : List CashFlow) (splits : JsMap String (List StockSplit)) (d : ℕ) :
    runCfShares (tsEnv stockPrices spyPrices cashFlows splits) (tsInit trades) d
      = counterfactualSharesAt trades cashFlows spyPrices d := by
  unfold runCfShares counterfactualSharesAt
  simp only [tsEnv, tsInit]
  by_cases hdep : cashFlows.filter (fun cf => cf.type = CashFlowType.deposit) = []
  · have hflag : useDepositBasis cashFlows = false := by
      simp [useDepositBasis, hdep]
    rw [if_neg (by simp [hflag]), if_pos hdep]
    show (processTrades spyPrices d (sortByDate Trade.date trades) [] 0
      0).tradeBasedSpyShares = _
    rw [processTrades_tradeBasedSpyShares, zero_add]
    rw [← sorted_filter_eq_takeWhile Trade.date (sortByDate Trade.date trades) d
      (sortByDate_sorted Trade.date trades)]
    exact (((sortByDate_perm Trade.date trades).filter _).map _).sum_eq
  · have hflag : useDepositBasis cashFlows = true := by
      simp [useDepositBasis, hdep]
    rw [if_pos (by simp [hflag]), if_neg hdep]

theorem map_date_filterMap (l : List StockPrice)
    (F : StockPrice → Option PortfolioDataPoint) (pb : ℕ → Bool)
    (hdate : ∀ sp pt, F sp = some pt → pt.date = sp.date)
    (hsome : ∀ sp, (F sp).isSome = pb sp.date) :
    (l.filterMap F).map (·.date) = (l.map (·.date)).filter pb := by
  induction l with
  | nil => rfl
  | cons sp rest ih =>
    rw [List.filterMap_cons, List.map_cons, List.filter_cons]
    cases hF : F sp with
    | none =>
      have h1 : pb sp.date = false := by rw [← hsome sp, hF]; rfl
      simp [h1, ih]
    | some pt =>
      have h1 : pb sp.date = true := by rw [← hsome sp, hF]; rfl
      have h2 := hdate sp pt hF
      simp [h1, h2, ih]

/-- C2: with non-empty trades and a non-empty strictly-ascending index
series, the emitted data points are in strictly ascending date order, every
emitted date is one of the index series' dates, and an index date is
emitted exactly when the run's cost basis for that day is strictly
positive. -/
theorem emits_exactly_positive_cost_days (trades : List Trade)
    (stockPrices : JsMap String (List StockPrice)) (spyPrices : List StockPrice)
    (cashFlows : List CashFlow) (splits : JsMap String (List StockSplit))
    (htrne : trades ≠ []) (hspyne : spyPrices ≠ [])
    (hasc : spyPrices.Pairwise (fun a b => a.date < b.date)) :
    ((calculatePortfolioTimeSeries trades stockPrices spyPrices cashFlows splits).map
        (·.date)).Pairwise (· < ·)
    ∧ (∀ p ∈ calculatePortfolioTimeSeries trades stockPrices spyPrices cashFlows splits,
        p.date ∈ spyPrices.map (·.date))
    ∧ ∀ d ∈ spyPrices.map (·.date),
        ((∃ p ∈ calculatePortfolioTimeSeries trades stockPrices spyPrices cashFlows splits,
            p.date = d)
          ↔ 0 < costBasisAt trades cashFlows d) := by
  have hspyle : spyPrices.Pairwise (fun a b => a.date ≤ b.date) :=
    hasc.imp (fun h => le_of_lt h)
  have heq : calculatePortfolioTimeSeries trades stockPrices spyPrices cashFlows splits
      = spyPrices.filterMap
        (dayPoint (tsEnv stockPrices spyPrices cashFlows splits) (tsInit trades)) := by
    rw [calculatePortfolioTimeSeries_eq_loop, if_neg (by simp [htrne, hspyne])]
    exact tsLoop_eq_filterMap _ spyPrices (tsInit trades) hspyle
      (sortByDate_sorted Trade.date trades)
  have hsome : ∀ sp, (dayPoint (tsEnv stockPrices spyPrices cashFlows splits)
      (tsInit trades) sp).isSome
      = decide (0 < costBasisAt trades cashFlows sp.date) := by
    intro sp
    rw [dayPoint_emit, runCostBasis_init]
    by_cases h : 0 < costBasisAt trades cashFlows sp.date <;> simp [h]
  have hdate : ∀ sp pt, dayPoint (tsEnv stockPrices spyPrices cashFlows splits)
      (tsInit trades) sp = some pt → pt.date = sp.date := by
    intro sp pt h
    rw [dayPoint_emit] at h
    by_cases hc : 0 < runCostBasis (tsEnv stockPrices spyPrices cashFlows splits)
        (tsInit trades) sp.date
    · rw [if_pos hc] at h
      obtain rfl := Option.some.inj h
      rfl
    · rw [if_neg hc] at h
      cases h
  have hmapeq : (calculatePortfolioTimeSeries trades stockPrices spyPrices cashFlows
      splits).map (·.date)
      = (spyPrices.map (·.date)).filter
          (fun d => decide (0 < costBasisAt trades cashFlows d)) := by
    rw [heq]
    exact map_date_filterMap spyPrices _ _ hdate hsome
  refine ⟨?_, ?_, ?_⟩
  · rw [hmapeq]
    exact (List.pairwise_map.mpr hasc).filter _
  · intro p hp
    have hmem : p.date ∈ (calculatePortfolioTimeSeries trades stockPrices spyPrices
        cashFlows splits).map (·.date) := List.mem_map_of_mem _ hp
    rw [hmapeq] at hmem
    exact List.mem_of_mem_filter hmem
  · intro d hd
    constructor
    · rintro ⟨p, hp, rfl⟩
      have hmem : p.date ∈ (calculatePortfolioTimeSeries trades stockPrices spyPrices
          cashFlows splits).map (·.date) := List.mem_map_of_mem _ hp
      rw [hmapeq] at hmem
      simpa using (List.mem_filter.mp hmem).2
    · intro hpos
      have hmem : d ∈ (spyPrices.map (·.date)).filter
          (fun d => decide (0 < costBasisAt trades cashFlows d)) :=
        List.mem_filter.mpr ⟨hd, by simpa using hpos⟩
      rw [← hmapeq] at hmem
      rcases List.mem_map.mp hmem with ⟨p, hp, hpd⟩
      exact ⟨p, hp, hpd⟩

/-- Witness for C2 on one buy and a two-day index series. -/
theorem emits_exactly_positive_cost_days_witness :
    ([{ ticker := "A", date := 1, shares := 1, price := some 10, type := .buy }] :
        List Trade) ≠ []
    ∧ ([{ date := 1, price := 100, high := none }, { date := 2, price := 101, high := none }] :
        List StockPrice) ≠ []
    ∧ ([{ date := 1, price := 100, high := none }, { date := 2, price := 101, high := none }] :
        List StockPrice).Pairwise (fun a b => a.date < b.date)
    ∧ (((calculatePortfolioTimeSeries
          [{ ticker := "A", date := 1, shares := 1, price := some 10, type := .buy }]
          [("A", [{ date := 1, price := 10, high := none }])]
          [{ date := 1, price := 100, high := none }, { date := 2, price := 101, high := none }]
          [] []).map (·.date)).Pairwise (· < ·)
      ∧ (∀ p ∈ calculatePortfolioTimeSeries
            [{ ticker := "A", date := 1, shares := 1, price := some 10, type := .buy }]
            [("A", [{ date := 1, price := 10, high := none }])]
            [{ date := 1, price := 100, high := none }, { date := 2, price := 101, high := none }]
            [] [],
          p.date ∈ ([{ date := 1, price := 100, high := none },
            { date := 2, price := 101, high := none }] : List StockPrice).map (·.date))
      ∧ ∀ d ∈ ([{ date := 1, price := 100, high := none },
            { date := 2, price := 101, high := none }] : List StockPrice).map (·.date),
          ((∃ p ∈ calculatePortfolioTimeSeries
              [{ ticker := "A", date := 1, shares := 1, price := some 10, type := .buy }]
              [("A", [{ date := 1, price := 10, high := none }])]
              [{ date := 1, price := 100, high := none },
                { date := 2, price := 101, high := none }]
              [] [], p.date = d)
            ↔ 0 < costBasisAt
                [{ ticker := "A", date := 1, shares := 1, price := some 10, type := .buy }]
                [] d)) := by
  refine ⟨by simp, by simp, by simp [List.pairwise_cons], ?_⟩
  exact emits_exactly_positive_cost_days _ _ _ _ _ (by simp) (by simp)
    (by simp [List.pairwise_cons])

theorem sorted_date_inj (l : List StockPrice)
    (hasc : l.Pairwise (fun a b => a.date < b.date)) :
    ∀ x ∈ l, ∀ y ∈ l, x.date = y.date → x = y := by
  induction l with
  | nil => intro x hx; cases hx
  | cons a rest ih =>
    rcases List.pairwise_cons.mp hasc with ⟨hhead, htail⟩
    intro x hx y hy hxy
    rcases List.mem_cons.mp hx with rfl | hx' <;> rcases List.mem_cons.mp hy with rfl | hy'
    · rfl
    · have h2 : x.date < y.date := hhead y hy'
      omega
    · have h2 : y.date < x.date := hhead x hx'
      omega
    · exact ih htail x hx' y hy' hxy

/-- C6: the engine is in cash-flow-basis mode for cost basis exactly when
the sum of all supplied cash-flow amounts is strictly positive, and
independently in deposit-basis mode for the counterfactual exactly when
some cash flow has type `deposit`; both policies are fixed for the whole
run — every emitted day's `costBasis` (resp. `counterfactualValue`) equals
the formula selected by the whole-run flag, so the two modes can differ
within one run (e.g. dividend-only cash flows). -/
theorem basis_modes_fixed_per_run (trades : List Trade)
    (stockPrices : JsMap String (List StockPrice)) (spyPrices : List StockPrice)
    (cashFlows : List CashFlow) (splits : JsMap String (List StockSplit))
    (hasc : spyPrices.Pairwise (fun a b => a.date < b.date)) :
    ((useCashFlowBasis cashFlows = true) ↔ 0 < cashFlowTotal cashFlows)
    ∧ ((useDepositBasis cashFlows = true)
        ↔ ∃ cf ∈ cashFlows, cf.type = CashFlowType.deposit)
    ∧ ∀ p ∈ calculatePortfolioTimeSeries trades stockPrices spyPrices cashFlows splits,
        p.costBasis = round2 (costBasisAt trades cashFlows p.date)
        ∧ ∀ sp ∈ spyPrices, sp.date = p.date →
            p.counterfactualValue
              = round2 ((max 0 (counterfactualSharesAt trades cashFlows spyPrices p.date))
                  * sp.price) := by
  refine ⟨useCashFlowBasis_iff cashFlows, useDepositBasis_iff cashFlows, ?_⟩
  by_cases hedge : trades = [] ∨ spyPrices = []
  · rw [calculatePortfolioTimeSeries_eq_loop, if_pos hedge]
    intro p hp
    cases hp
  · have hspyle : spyPrices.Pairwise (fun a b => a.date ≤ b.date) :=
      hasc.imp (fun h => le_of_lt h)
    have heq : calculatePortfolioTimeSeries trades stockPrices spyPrices cashFlows splits
        = spyPrices.filterMap
          (dayPoint (tsEnv stockPrices spyPrices cashFlows splits) (tsInit trades)) := by
      rw [calculatePortfolioTimeSeries_eq_loop, if_neg hedge]
      exact tsLoop_eq_filterMap _ spyPrices (tsInit trades) hspyle
        (sortByDate_sorted Trade.date trades)
    intro p hp
    rw [heq] at hp
    rcases List.mem_filterMap.mp hp with ⟨sp0, hsp0, hF⟩
    rw [dayPoint_emit] at hF
    by_cases hc : 0 < runCostBasis (tsEnv stockPrices spyPrices cashFlows splits)
        (tsInit trades) sp0.date
    · rw [if_pos hc] at hF
      obtain rfl := Option.some.inj hF
      constructor
      · show round2 (runCostBasis (tsEnv stockPrices spyPrices cashFlows splits)
          (tsInit trades) sp0.date) = _
        rw [runCostBasis_init]
      · intro sp hsp hspdate
        have hss : sp = sp0 := sorted_date_inj spyPrices hasc sp hsp sp0 hsp0 hspdate
        subst hss
        show round2 ((max 0 (runCfShares (tsEnv stockPrices spyPrices cashFlows splits)
          (tsInit trades) sp.date)) * sp.price) = _
        rw [runCfShares_init]
    · rw [if_neg hc] at hF
      cases hF

/-- Witness for C6 with a dividend-only cash flow: cash-flow-basis mode for
cost, trade-basis mode for the counterfactual, in the same run. -/
theorem basis_modes_fixed_per_run_witness :
    ([{ date := 1, price := 100, high := none }, { date := 2, price := 101, high := none }] :
        List StockPrice).Pairwise (fun a b => a.date < b.date)
    ∧ (((useCashFlowBasis
          [{ date := 1, amount := 50, type := .dividend, ticker := some "A" }] = true)
        ↔ 0 < cashFlowTotal
            [{ date := 1, amount := 50, type := .dividend, ticker := some "A" }])
      ∧ ((useDepositBasis
            [{ date := 1, amount := 50, type := .dividend, ticker := some "A" }] = true)
          ↔ ∃ cf ∈ ([{ date := 1, amount := 50, type := .dividend, ticker := some "A" }] :
              List CashFlow), cf.type = CashFlowType.deposit)
      ∧ ∀ p ∈ calculatePortfolioTimeSeries
            [{ ticker := "A", date := 1, shares := 1, price := some 10, type := .buy }]
            [("A", [{ date := 1, price := 10, high := none }])]
            [{ date := 1, price := 100, high := none }, { date := 2, price := 101, high := none }]
            [{ date := 1, amount := 50, type := .dividend, ticker := some "A" }] [],
          p.costBasis = round2 (costBasisAt
            [{ ticker := "A", date := 1, shares := 1, price := some 10, type := .buy }]
            [{ date := 1, amount := 50, type := .dividend, ticker := some "A" }] p.date)
          ∧ ∀ sp ∈ ([{ date := 1, price := 100, high := none },
              { date := 2, price := 101, high := none }] : List StockPrice),
              sp.date = p.date →
              p.counterfactualValue
                = round2 ((max 0 (counterfactualSharesAt
                    [{ ticker := "A", date := 1, shares := 1, price := some 10, type := .buy }]
                    [{ date := 1, amount := 50, type := .dividend, ticker := some "A" }]
                    [{ date := 1, price := 100, high := none },
                      { date := 2, price := 101, high := none }] p.date)) * sp.price)) := by
  refine ⟨by simp [List.pairwise_cons], ?_⟩
  exact basis_modes_fixed_per_run _ _ _ _ _ (by simp [List.pairwise_cons])

/-! ## Deposit-walk lemmas (C7) -/

theorem getPriceOnOrBefore_val_mem (prices : List StockPrice) (d : ℕ) (v : ℚ)
    (hs : prices.Pairwise (fun a b => a.date ≤ b.date))
    (h : getPriceOnOrBefore prices d = some v) : ∃ q ∈ prices, v = q.price := by
  rw [getPriceOnOrBefore_eq_filtered prices d hs] at h
  cases hl : (prices.filter (fun q => q.date ≤ d)).getLast? with
  | some q =>
    rw [hl] at h
    obtain rfl := (Option.some.inj h).symm
    have hq : q ∈ prices.filter (fun q => decide (q.date ≤ d)) := by
      rcases List.mem_getLast?_eq_getLast (show q ∈ (prices.filter
        (fun q => decide (q.date ≤ d))).getLast? from hl) with ⟨hne, rfl⟩
      exact List.getLast_mem hne
    exact ⟨q, List.mem_of_mem_filter hq, rfl⟩
  | none =>
    rw [hl] at h
    rcases Option.map_eq_some'.mp h with ⟨p0, hp0, rfl⟩
    exact ⟨p0, List.mem_of_mem_head? hp0, rfl⟩

theorem getPriceOnOrBefore_nonneg (prices : List StockPrice) (d : ℕ) (v : ℚ)
    (hs : prices.Pairwise (fun a b => a.date ≤ b.date))
    (hpr : ∀ q ∈ prices, 0 ≤ q.price)
    (h : getPriceOnOrBefore prices d = some v) : 0 ≤ v := by
  rcases getPriceOnOrBefore_val_mem prices d v hs h with ⟨q, hq, rfl⟩
  exact hpr q hq

theorem buildDepositShares_fst (spy : List StockPrice) :
    ∀ (deps : List CashFlow) (m0 : JsMap ℕ ℚ) (c0 : ℚ),
      (buildDepositShares spy deps (m0, c0)).1
        = (depositCums spy deps c0).foldl (fun m p => mapSet m p.1 p.2) m0 := by
  intro deps
  induction deps with
  | nil => intro m0 c0; rfl
  | cons dep rest ih =>
    intro m0 c0
    cases hp : getPriceOnOrBefore spy dep.date with
    | none => simp only [buildDepositShares, depositCums, hp, ih]
    | some p =>
      by_cases hz : p = 0
      · simp only [buildDepositShares, depositCums, hp, if_pos hz, ih]
      · simp only [buildDepositShares, depositCums, hp, if_neg hz, List.foldl_cons, ih]

theorem mapGet?_foldl_mapSet_pairs :
    ∀ (pairs : List (ℕ × ℚ)) (m0 : JsMap ℕ ℚ) (k : ℕ),
      mapGet? (pairs.foldl (fun m p => mapSet m p.1 p.2) m0) k
        = match (pairs.filter (fun p => p.1 = k)).getLast? with
          | some q => some q.2
          | none => mapGet? m0 k := by
  intro pairs
  induction pairs with
  | nil => intro m0 k; rfl
  | cons q rest ih =>
    intro m0 k
    rw [List.foldl_cons, ih]
    by_cases hk : q.1 = k
    · subst hk
      cases hfil : rest.filter (fun p => decide (p.1 = q.1)) with
      | nil => simp [List.filter_cons, hfil, mapGet?_mapSet_self]
      | cons a l =>
        cases hq : (a :: l).getLast? with
        | none => exact absurd (List.getLast?_eq_none_iff.mp hq) (by simp)
        | some b => simp [List.filter_cons, hfil, List.getLast?_cons_cons, hq]
    · cases hfil : rest.filter (fun p => decide (p.1 = k)) with
      | nil => simp [List.filter_cons, hfil, hk, mapGet?_mapSet_ne _ _ _ _ hk]
      | cons a l =>
        cases hq : (a :: l).getLast? with
        | none => exact absurd (List.getLast?_eq_none_iff.mp hq) (by simp)
        | some b => simp [List.filter_cons, hfil, hk, hq]

theorem depositCums_mem (spy : List StockPrice) :
    ∀ (deps : List CashFlow) (c0 : ℚ) (x : ℕ × ℚ), x ∈ depositCums spy deps c0 →
      ∃ dep ∈ deps, x.1 = dep.date := by
  intro deps
  induction deps with
  | nil => intro c0 x hx; cases hx
  | cons dep rest ih =>
    intro c0 x hx
    cases hp : getPriceOnOrBefore spy dep.date with
    | none =>
      simp only [depositCums, hp] at hx
      rcases ih c0 x hx with ⟨d', hd', he⟩
      exact ⟨d', by simp [hd'], he⟩
    | some p =>
      by_cases hz : p = 0
      · simp only [depositCums, hp, if_pos hz] at hx
        rcases ih c0 x hx with ⟨d', hd', he⟩
        exact ⟨d', by simp [hd'], he⟩
      · simp only [depositCums, hp, if_neg hz] at hx
        rcases List.mem_cons.mp hx with rfl | hx'
        · exact ⟨dep, by simp, rfl⟩
        · rcases ih _ x hx' with ⟨d', hd', he⟩
          exact ⟨d', by simp [hd'], he⟩

theorem depositCums_dates_sorted (spy : List StockPrice) :
    ∀ (deps : List CashFlow) (c0 : ℚ),
      deps.Pairwise (fun a b => a.date ≤ b.date) →
      (depositCums spy deps c0).Pairwise (fun x y => x.1 ≤ y.1) := by
  intro deps
  induction deps with
  | nil => intro c0 _; exact List.Pairwise.nil
  | cons dep rest ih =>
    intro c0 hs
    rcases List.pairwise_cons.mp hs with ⟨hhead, htail⟩
    cases hp : getPriceOnOrBefore spy dep.date with
    | none =>
      rw [depositCums, hp]
      exact ih c0 htail
    | some p =>
      by_cases hz : p = 0
      · simp only [depositCums, hp, if_pos hz]
        exact ih c0 htail
      · simp only [depositCums, hp, if_neg hz]
        refine List.pairwise_cons.mpr ⟨?_, ih _ htail⟩
        intro x hx
        rcases depositCums_mem spy rest _ x hx with ⟨d', hd', he⟩
        have h2 : dep.date ≤ d'.date := hhead d' hd'
        simp only [he]
        omega

theorem depositCums_values (spy : List StockPrice)
    (hs : spy.Pairwise (fun a b => a.date ≤ b.date))
    (hpr : ∀ q ∈ spy, 0 ≤ q.price) :
    ∀ (deps : List CashFlow) (c0 : ℚ),
      (∀ dep ∈ deps, 0 ≤ dep.amount) →
      (∀ x ∈ depositCums spy deps c0, c0 ≤ x.2)
      ∧ (depositCums spy deps c0).Pairwise (fun x y => x.2 ≤ y.2) := by
  intro deps
  induction deps with
  | nil => intro c0 _; exact ⟨fun x hx => absurd hx (List.not_mem_nil x), List.Pairwise.nil⟩
  | cons dep rest ih =>
    intro c0 hamt
    have hamt' : ∀ d' ∈ rest, 0 ≤ d'.amount := fun d' hd' => hamt d' (by simp [hd'])
    cases hp : getPriceOnOrBefore spy dep.date with
    | none =>
      simp only [depositCums, hp]
      exact ih c0 hamt'
    | some p =>
      by_cases hz : p = 0
      · simp only [depositCums, hp, if_pos hz]
        exact ih c0 hamt'
      · simp only [depositCums, hp, if_neg hz]
        have hp0 : 0 ≤ p := getPriceOnOrBefore_nonneg spy dep.date p hs hpr hp
        have hinc : 0 ≤ dep.amount / p :=
          div_nonneg (hamt dep (by simp)) hp0
        have hlb : c0 ≤ c0 + dep.amount / p := by linarith
        rcases ih (c0 + dep.amount / p) hamt' with ⟨hlb', hpw'⟩
        constructor
        · intro x hx
          rcases List.mem_cons.mp hx with rfl | hx'
          · exact hlb
          · exact le_trans hlb (hlb' x hx')
        · refine List.pairwise_cons.mpr ⟨?_, hpw'⟩
          intro x hx
          exact hlb' x hx

theorem builtMap_nonneg (spy : List StockPrice) (deps : List CashFlow)
    (hs : spy.Pairwise (fun a b => a.date ≤ b.date))
    (hpr : ∀ q ∈ spy, 0 ≤ q.price) (hamt : ∀ dep ∈ deps, 0 ≤ dep.amount) :
    ∀ (k : ℕ) (v : ℚ),
      mapGet? (buildDepositShares spy deps ([], 0)).1 k = some v → 0 ≤ v := by
  intro k v h
  rw [buildDepositShares_fst, mapGet?_foldl_mapSet_pairs] at h
  cases hl : ((depositCums spy deps 0).filter (fun p => p.1 = k)).getLast? with
  | none => rw [hl] at h; cases h
  | some q =>
    rw [hl] at h
    obtain rfl := (Option.some.inj h).symm
    have hq : q ∈ depositCums spy deps 0 := by
      have hqf : q ∈ (depositCums spy deps 0).filter (fun p => decide (p.1 = k)) := by
        rcases List.mem_getLast?_eq_getLast (show q ∈ ((depositCums spy deps 0).filter
          (fun p => decide (p.1 = k))).getLast? from hl) with ⟨hne, rfl⟩
        exact List.getLast_mem hne
      exact List.mem_of_mem_filter hqf
    exact ((depositCums_values spy hs hpr deps 0 hamt).1) q hq

theorem builtMap_mono (spy : List StockPrice) (deps : List CashFlow)
    (hs : spy.Pairwise (fun a b => a.date ≤ b.date))
    (hpr : ∀ q ∈ spy, 0 ≤ q.price) (hamt : ∀ dep ∈ deps, 0 ≤ dep.amount)
    (hdeps : deps.Pairwise (fun x y => x.date ≤ y.date)) :
    ∀ (k1 k2 : ℕ), k1 ≤ k2 → ∀ (v1 v2 : ℚ),
      mapGet? (buildDepositShares spy deps ([], 0)).1 k1 = some v1 →
      mapGet? (buildDepositShares spy deps ([], 0)).1 k2 = some v2 → v1 ≤ v2 := by
  intro k1 k2 hk v1 v2 h1 h2
  by_cases hkk : k1 = k2
  · subst hkk
    rw [h1] at h2
    obtain rfl := Option.some.inj h2
    exact le_refl v1
  · rw [buildDepositShares_fst, mapGet?_foldl_mapSet_pairs] at h1 h2
    set cums := depositCums spy deps 0 with hcums
    cases hl1 : (cums.filter (fun p => p.1 = k1)).getLast? with
    | none => rw [hl1] at h1; cases h1
    | some q1 =>
      cases hl2 : (cums.filter (fun p => p.1 = k2)).getLast? with
      | none => rw [hl2] at h2; cases h2
      | some q2 =>
        rw [hl1] at h1
        rw [hl2] at h2
        obtain rfl := (Option.some.inj h1).symm
        obtain rfl := (Option.some.inj h2).symm
        have hq1f : q1 ∈ cums.filter (fun p => decide (p.1 = k1)) := by
          rcases List.mem_getLast?_eq_getLast (show q1 ∈ (cums.filter
            (fun p => decide (p.1 = k1))).getLast? from hl1) with ⟨hne, rfl⟩
          exact List.getLast_mem hne
        have hq2f : q2 ∈ cums.filter (fun p => decide (p.1 = k2)) := by
          rcases List.mem_getLast?_eq_getLast (show q2 ∈ (cums.filter
            (fun p => decide (p.1 = k2))).getLast? from hl2) with ⟨hne, rfl⟩
          exact List.getLast_mem hne
        have hq1 : q1 ∈ cums ∧ q1.1 = k1 := by
          rcases List.mem_filter.mp hq1f with ⟨hm, hp⟩
          exact ⟨hm, by simpa using hp⟩
        have hq2 : q2 ∈ cums ∧ q2.1 = k2 := by
          rcases List.mem_filter.mp hq2f with ⟨hm, hp⟩
          exact ⟨hm, by simpa using hp⟩
        have hpw : cums.Pairwise (fun x y => x.1 ≤ y.1 ∧ x.2 ≤ y.2) :=
          (depositCums_dates_sorted spy deps 0 hdeps).and
            ((depositCums_values spy hs hpr deps 0 hamt).2)
        rcases List.getElem_of_mem hq1.1 with ⟨i, hi, hqi⟩
        rcases List.getElem_of_mem hq2.1 with ⟨j, hj, hqj⟩
        rcases lt_trichotomy i j with hij | hij | hij
        · have := (List.pairwise_iff_getElem.mp hpw) i j hi hj hij
          rw [hqi, hqj] at this
          exact this.2
        · subst hij
          rw [hqi] at hqj
          rw [hqj] at hq1
          exact absurd (hq1.2.symm.trans hq2.2) hkk
        · have := (List.pairwise_iff_getElem.mp hpw) j i hj hi hij
          rw [hqi, hqj] at this
          have hk21 : k2 ≤ k1 := hq2.2 ▸ hq1.2 ▸ this.1
          omega

theorem depositSharesAsOf_eq_foldl (m : JsMap ℕ ℚ) (d : ℕ) :
    ∀ (deps : List CashFlow) (acc : ℚ),
      depositSharesAsOf m d deps acc
        = (deps.takeWhile (fun dep => dep.date ≤ d)).foldl
            (fun a dep => match mapGet? m dep.date with | some v => v | none => a) acc := by
  intro deps
  induction deps with
  | nil => intro acc; rfl
  | cons dep rest ih =>
    intro acc
    by_cases hlt : d < dep.date
    · have hc : decide (dep.date ≤ d) = false := by
        simp only [decide_eq_false_iff_not]
        omega
      simp only [depositSharesAsOf, if_pos hlt, List.takeWhile_cons, hc,
        Bool.false_eq_true, if_false, List.foldl_nil]
    · have hd2 : dep.date ≤ d := by omega
      have hc : decide (dep.date ≤ d) = true := by simpa using hd2
      simp only [depositSharesAsOf, if_neg hlt, List.takeWhile_cons, hc, if_true,
        List.foldl_cons]
      exact ih _

theorem takeWhile_le_extend (d d' : ℕ) (hdd : d ≤ d') :
    ∀ (l : List CashFlow), l.Pairwise (fun x y => x.date ≤ y.date) →
      ∃ ext, l.takeWhile (fun x => x.date ≤ d')
          = l.takeWhile (fun x => x.date ≤ d) ++ ext
        ∧ ∀ x ∈ ext, x ∈ l ∧ d < x.date := by
  intro l
  induction l with
  | nil => intro _; exact ⟨[], rfl, by simp⟩
  | cons a rest ih =>
    intro hs
    rcases List.pairwise_cons.mp hs with ⟨hhead, htail⟩
    by_cases ha : a.date ≤ d
    · have ha' : a.date ≤ d' := le_trans ha hdd
      rcases ih htail with ⟨ext, heq, hmem⟩
      refine ⟨ext, ?_, ?_⟩
      · have hc : decide (a.date ≤ d) = true := by simpa using ha
        have hc' : decide (a.date ≤ d') = true := by simpa using ha'
        simp only [List.takeWhile_cons, hc, hc', if_true, heq, List.cons_append]
      · intro x hx
        exact ⟨by simp [(hmem x hx).1], (hmem x hx).2⟩
    · refine ⟨(a :: rest).takeWhile (fun x => x.date ≤ d'), ?_, ?_⟩
      · have hc : decide (a.date ≤ d) = false := by simpa using ha
        simp only [List.takeWhile_cons, hc, Bool.false_eq_true, if_false,
          List.nil_append]
      · intro x hx
        have hxl : x ∈ a :: rest := (List.takeWhile_sublist _).subset hx
        refine ⟨hxl, ?_⟩
        rcases List.mem_cons.mp hxl with rfl | hx'
        · omega
        · have h2 : a.date ≤ x.date := hhead x hx'
          omega

theorem foldl_lookup_lb (m : JsMap ℕ ℚ) :
    ∀ (ext : List CashFlow) (acc : ℚ),
      ext.Pairwise (fun x y => x.date ≤ y.date) →
      (∀ dep ∈ ext, ∀ v, mapGet? m dep.date = some v → acc ≤ v) →
      (∀ dep1 ∈ ext, ∀ dep2 ∈ ext, dep1.date ≤ dep2.date →
        ∀ v1 v2, mapGet? m dep1.date = some v1 → mapGet? m dep2.date = some v2 →
          v1 ≤ v2) →
      acc ≤ ext.foldl
        (fun a dep => match mapGet? m dep.date with | some v => v | none => a) acc := by
  intro ext
  induction ext with
  | nil => intro acc _ _ _; exact le_refl acc
  | cons dep rest ih =>
    intro acc hpw hub hmono
    rcases List.pairwise_cons.mp hpw with ⟨hhead, htail⟩
    rw [List.foldl_cons]
    cases hv : mapGet? m dep.date with
    | none =>
      simp only [hv]
      exact ih acc htail (fun d' hd' v hv' => hub d' (by simp [hd']) v hv')
        (fun d1 h1 d2 h2 hda v1 v2 hv1 hv2 =>
          hmono d1 (by simp [h1]) d2 (by simp [h2]) hda v1 v2 hv1 hv2)
    | some v =>
      simp only [hv]
      have hav : acc ≤ v := hub dep (by simp) v hv
      have hih : v ≤ rest.foldl
          (fun a dep => match mapGet? m dep.date with | some v => v | none => a) v :=
        ih v htail
          (fun d' hd' v' hv' =>
            hmono dep (by simp) d' (by simp [hd']) (hhead d' hd') v v' hv hv')
          (fun d1 h1 d2 h2 hda v1 v2 hv1 hv2 =>
            hmono d1 (by simp [h1]) d2 (by simp [h2]) hda v1 v2 hv1 hv2)
      exact le_trans hav hih

theorem foldl_lookup_cases (m : JsMap ℕ ℚ) :
    ∀ (l : List CashFlow) (acc : ℚ),
      l.foldl (fun a dep => match mapGet? m dep.date with | some v => v | none => a) acc
          = acc
      ∨ ∃ dep ∈ l, ∃ w, mapGet? m dep.date = some w
          ∧ l.foldl (fun a dep => match mapGet? m dep.date with | some v => v | none => a)
              acc = w := by
  intro l
  induction l with
  | nil => intro acc; exact Or.inl rfl
  | cons dep rest ih =>
    intro acc
    rw [List.foldl_cons]
    cases hv : mapGet? m dep.date with
    | none =>
      simp only [hv]
      rcases ih acc with h | ⟨dep', hdep', w, hw, heq⟩
      · exact Or.inl h
      · exact Or.inr ⟨dep', by simp [hdep'], w, hw, heq⟩
    | some v =>
      simp only [hv]
      rcases ih v with h | ⟨dep', hdep', w, hw, heq⟩
      · exact Or.inr ⟨dep, by simp, v, hv, h⟩
      · exact Or.inr ⟨dep', by simp [hdep'], w, hw, heq⟩

theorem depositSharesAsOf_mono (spy : List StockPrice) (deps : List CashFlow)
    (hs : spy.Pairwise (fun a b => a.date ≤ b.date))
    (hpr : ∀ q ∈ spy, 0 ≤ q.price) (hamt : ∀ dep ∈ deps, 0 ≤ dep.amount)
    (hdeps : deps.Pairwise (fun x y => x.date ≤ y.date))
    (d d' : ℕ) (hdd : d ≤ d') :
    depositSharesAsOf (buildDepositShares spy deps ([], 0)).1 d deps 0
      ≤ depositSharesAsOf (buildDepositShares spy deps ([], 0)).1 d' deps 0 := by
  set m := (buildDepositShares spy deps ([], 0)).1 with hm
  rw [depositSharesAsOf_eq_foldl, depositSharesAsOf_eq_foldl]
  rcases takeWhile_le_extend d d' hdd deps hdeps with ⟨ext, heq, hmem⟩
  rw [heq, List.foldl_append]
  have hnn := builtMap_nonneg spy deps hs hpr hamt
  have hmono := builtMap_mono spy deps hs hpr hamt hdeps
  have hpwd' : (deps.takeWhile (fun x => x.date ≤ d')).Pairwise
      (fun x y => x.date ≤ y.date) := hdeps.sublist (List.takeWhile_sublist _)
  rw [heq] at hpwd'
  have hpwext : ext.Pairwise (fun x y => x.date ≤ y.date) :=
    (List.pairwise_append.mp hpwd').2.1
  refine foldl_lookup_lb m ext _ hpwext ?_ ?_
  · intro dep hdep v hv
    rcases foldl_lookup_cases m (deps.takeWhile (fun x => x.date ≤ d)) 0 with
      h0 | ⟨predep, hpredep, w, hw, heqw⟩
    · rw [h0]
      exact hnn dep.date v hv
    · rw [heqw]
      have h1 : predep.date ≤ d := by simpa using List.mem_takeWhile_imp hpredep
      have h2 : d < dep.date := (hmem dep hdep).2
      exact hmono predep.date dep.date (by omega) w v hw hv
  · intro dep1 h1 dep2 h2 hda v1 v2 hv1 hv2
    exact hmono dep1.date dep2.date hda v1 v2 hv1 hv2

theorem tradeSpyChange_nonneg (spy : List StockPrice)
    (hs : spy.Pairwise (fun a b => a.date ≤ b.date)) (hpr : ∀ q ∈ spy, 0 ≤ q.price)
    (tr : Trade) (htype : tr.type = TradeType.buy) (hsh : 0 ≤ tr.shares)
    (hprice : 0 ≤ tr.price.getD 0) : 0 ≤ tradeSpyChange spy tr := by
  unfold tradeSpyChange
  cases hp : getPriceOnOrBefore spy tr.date with
  | none => exact le_refl 0
  | some p =>
    by_cases hz : p = 0
    · simp only [if_pos hz]
      exact le_refl 0
    · simp only [if_neg hz, htype]
      have hp0 : 0 ≤ p := getPriceOnOrBefore_nonneg spy tr.date p hs hpr hp
      exact div_nonneg (mul_nonneg hsh hprice) hp0

theorem tradeShares_mono (spy : List StockPrice) (trades : List Trade)
    (hs : spy.Pairwise (fun a b => a.date ≤ b.date)) (hpr : ∀ q ∈ spy, 0 ≤ q.price)
    (htr : ∀ tr ∈ trades,
      tr.type = TradeType.buy ∧ 0 ≤ tr.shares ∧ 0 ≤ tr.price.getD 0)
    (d d' : ℕ) (hdd : d ≤ d') :
    ((trades.filter (fun t => t.date ≤ d)).map (tradeSpyChange spy)).sum
      ≤ ((trades.filter (fun t => t.date ≤ d')).map (tradeSpyChange spy)).sum := by
  have hsub : (trades.filter (fun t => decide (t.date ≤ d))).Sublist
      (trades.filter (fun t => decide (t.date ≤ d'))) :=
    List.monotone_filter_right trades
      (fun a ha => by
        simp only [decide_eq_true_eq] at ha ⊢
        omega)
  refine List.Sublist.sum_le_sum (hsub.map _) ?_
  intro x hx
  rcases List.mem_map.mp hx with ⟨tr, htr', rfl⟩
  have htrm : tr ∈ trades := List.mem_of_mem_filter htr'
  exact tradeSpyChange_nonneg spy hs hpr tr (htr tr htrm).1 (htr tr htrm).2.1
    (htr tr htrm).2.2

theorem counterfactualSharesAt_mono (trades : List Trade) (cashFlows : List CashFlow)
    (spyPrices : List StockPrice)
    (hs : spyPrices.Pairwise (fun a b => a.date ≤ b.date))
    (hpr : ∀ q ∈ spyPrices, 0 ≤ q.price)
    (hcf : ∀ cf ∈ cashFlows, 0 ≤ cf.amount)
    (htr : ∀ tr ∈ trades,
      tr.type = TradeType.buy ∧ 0 ≤ tr.shares ∧ 0 ≤ tr.price.getD 0)
    (d d' : ℕ) (hdd : d ≤ d') :
    counterfactualSharesAt trades cashFlows spyPrices d
      ≤ counterfactualSharesAt trades cashFlows spyPrices d' := by
  unfold counterfactualSharesAt
  by_cases hdep : cashFlows.filter (fun cf => cf.type = CashFlowType.deposit) = []
  · rw [if_pos hdep, if_pos hdep]
    exact tradeShares_mono spyPrices trades hs hpr htr d d' hdd
  · rw [if_neg hdep, if_neg hdep]
    refine depositSharesAsOf_mono spyPrices _ hs hpr ?_ (sortByDate_sorted _ _) d d' hdd
    intro dep hdepm
    have h1 : dep ∈ cashFlows.filter (fun cf => cf.type = CashFlowType.deposit) :=
      (sortByDate_perm CashFlow.date _).mem_iff.mp hdepm
    exact hcf dep (List.mem_of_mem_filter h1)

theorem ts_dates_pairwise (trades : List Trade)
    (stockPrices : JsMap String (List StockPrice)) (spyPrices : List StockPrice)
    (cashFlows : List CashFlow) (splits : JsMap String (List StockSplit))
    (hasc : spyPrices.Pairwise (fun a b => a.date < b.date)) :
    ((calculatePortfolioTimeSeries trades stockPrices spyPrices cashFlows splits).map
      (·.date)).Pairwise (· < ·) := by
  by_cases hedge : trades = [] ∨ spyPrices = []
  · rw [calculatePortfolioTimeSeries_eq_loop, if_pos hedge]
    exact List.Pairwise.nil
  · have hspyle : spyPrices.Pairwise (fun a b => a.date ≤ b.date) :=
      hasc.imp (fun h => le_of_lt h)
    have heq : calculatePortfolioTimeSeries trades stockPrices spyPrices cashFlows splits
        = spyPrices.filterMap
          (dayPoint (tsEnv stockPrices spyPrices cashFlows splits) (tsInit trades)) := by
      rw [calculatePortfolioTimeSeries_eq_loop, if_neg hedge]
      exact tsLoop_eq_filterMap _ spyPrices (tsInit trades) hspyle
        (sortByDate_sorted Trade.date trades)
    have hsome : ∀ sp, (dayPoint (tsEnv stockPrices spyPrices cashFlows splits)
        (tsInit trades) sp).isSome
        = decide (0 < costBasisAt trades cashFlows sp.date) := by
      intro sp
      rw [dayPoint_emit, runCostBasis_init]
      by_cases h : 0 < costBasisAt trades cashFlows sp.date <;> simp [h]
    have hdate : ∀ sp pt, dayPoint (tsEnv stockPrices spyPrices cashFlows splits)
        (tsInit trades) sp = some pt → pt.date = sp.date := by
      intro sp pt h
      rw [dayPoint_emit] at h
      by_cases hc : 0 < runCostBasis (tsEnv stockPrices spyPrices cashFlows splits)
          (tsInit trades) sp.date
      · rw [if_pos hc] at h
        obtain rfl := Option.some.inj h
        rfl
      · rw [if_neg hc] at h
        cases h
    have hmapeq : ((spyPrices.filterMap
        (dayPoint (tsEnv stockPrices spyPrices cashFlows splits)
          (tsInit trades))).map (·.date))
        = (spyPrices.map (·.date)).filter
          (fun d => decide (0 < costBasisAt trades cashFlows d)) :=
      map_date_filterMap spyPrices _ _ hdate hsome
    rw [heq, hmapeq]
    exact (List.pairwise_map.mpr hasc).filter _

/-- C7: with only non-negative `deposit` cash flows, only buy trades (with
non-negative shares and price) and a non-negative ascending index series,
the counterfactual index-share count selected for each emitted day is
non-decreasing along the emitted sequence. -/
theorem counterfactual_shares_monotone (trades : List Trade)
    (stockPrices : JsMap String (List StockPrice)) (spyPrices : List StockPrice)
    (cashFlows : List CashFlow) (splits : JsMap String (List StockSplit))
    (hasc : spyPrices.Pairwise (fun a b => a.date < b.date))
    (hpr : ∀ q ∈ spyPrices, 0 ≤ q.price)
    (hcf : ∀ cf ∈ cashFlows, cf.type = CashFlowType.deposit ∧ 0 ≤ cf.amount)
    (htr : ∀ tr ∈ trades,
      tr.type = TradeType.buy ∧ 0 ≤ tr.shares ∧ 0 ≤ tr.price.getD 0) :
    ((calculatePortfolioTimeSeries trades stockPrices spyPrices cashFlows splits).map
      (fun p => counterfactualSharesAt trades cashFlows spyPrices p.date)).Chain'
      (· ≤ ·) := by
  have hmono := counterfactualSharesAt_mono trades cashFlows spyPrices
    (hasc.imp (fun h => le_of_lt h)) hpr (fun cf h => (hcf cf h).2) htr
  have hdates := ts_dates_pairwise trades stockPrices spyPrices cashFlows splits hasc
  have hpw : (calculatePortfolioTimeSeries trades stockPrices spyPrices cashFlows
      splits).Pairwise (fun p q => p.date < q.date) := List.pairwise_map.mp hdates
  have hpw2 : (calculatePortfolioTimeSeries trades stockPrices spyPrices cashFlows
      splits).Pairwise (fun p q =>
        counterfactualSharesAt trades cashFlows spyPrices p.date
          ≤ counterfactualSharesAt trades cashFlows spyPrices q.date) :=
    hpw.imp (fun h => hmono _ _ (le_of_lt h))
  exact (List.pairwise_map.mpr hpw2).chain'

/-- Witness for C7: one deposit, one buy, two ascending index days. -/
theorem counterfactual_shares_monotone_witness :
    ([{ date := 1, price := 100, high := none }, { date := 2, price := 101, high := none }] :
        List StockPrice).Pairwise (fun a b => a.date < b.date)
    ∧ (∀ q ∈ ([{ date := 1, price := 100, high := none },
        { date := 2, price := 101, high := none }] : List StockPrice), 0 ≤ q.price)
    ∧ (∀ cf ∈ ([{ date := 1, amount := 100, type := .deposit, ticker := none }] :
        List CashFlow), cf.type = CashFlowType.deposit ∧ 0 ≤ cf.amount)
    ∧ (∀ tr ∈ ([{ ticker := "A", date := 1, shares := 1, price := some 10, type := .buy }] :
        List Trade), tr.type = TradeType.buy ∧ 0 ≤ tr.shares ∧ 0 ≤ tr.price.getD 0)
    ∧ ((calculatePortfolioTimeSeries
        [{ ticker := "A", date := 1, shares := 1, price := some 10, type := .buy }]
        [("A", [{ date := 1, price := 10, high := none }])]
        [{ date := 1, price := 100, high := none }, { date := 2, price := 101, high := none }]
        [{ date := 1, amount := 100, type := .deposit, ticker := none }] []).map
      (fun p => counterfactualSharesAt
        [{ ticker := "A", date := 1, shares := 1, price := some 10, type := .buy }]
        [{ date := 1, amount := 100, type := .deposit, ticker := none }]
        [{ date := 1, price := 100, high := none }, { date := 2, price := 101, high := none }]
        p.date)).Chain' (· ≤ ·) := by
  refine ⟨by simp [List.pairwise_cons], ?_, ?_, ?_, ?_⟩
  · intro q hq
    rcases List.mem_cons.mp hq with rfl | hq'
    · norm_num
    · rcases List.mem_singleton.mp hq' with rfl
      norm_num
  · intro cf hcf
    rcases List.mem_singleton.mp hcf with rfl
    exact ⟨rfl, by norm_num⟩
  · intro tr htr
    rcases List.mem_singleton.mp htr with rfl
    refine ⟨rfl, by norm_num, by norm_num⟩
  · refine counterfactual_shares_monotone _ _ _ _ _ (by simp [List.pairwise_cons]) ?_ ?_ ?_
    · intro q hq
      rcases List.mem_cons.mp hq with rfl | hq'
      · norm_num
      · rcases List.mem_singleton.mp hq' with rfl
        norm_num
    · intro cf hcf
      rcases List.mem_singleton.mp hcf with rfl
      exact ⟨rfl, by norm_num⟩
    · intro tr htr
      rcases List.mem_singleton.mp htr with rfl
      refine ⟨rfl, by norm_num, by norm_num⟩

theorem checkedDiv_of_pos (a b : ℚ) (h : 0 < b) : checkedDiv a b = some (a / b) := by
  unfold checkedDiv
  rw [if_neg (ne_of_gt h)]

theorem checkedTradeSpyChange_eq (spy : List StockPrice) (tr : Trade) :
    checkedTradeSpyChange spy tr = some (tradeSpyChange spy tr) := by
  unfold checkedTradeSpyChange tradeSpyChange
  cases hp : getPriceOnOrBefore spy tr.date with
  | none => rfl
  | some p =>
    by_cases hz : p = 0
    · simp only [if_pos hz]
    · simp only [if_neg hz, checkedDiv, Option.map_some']

theorem checkedProcessTrades_eq (spy : List StockPrice) (d : ℕ) :
    ∀ (ts : List Trade) (shares : JsMap String ℚ) (tbss tcb : ℚ),
      checkedProcessTrades spy d ts shares tbss tcb
        = some (processTrades spy d ts shares tbss tcb) := by
  intro ts
  induction ts with
  | nil => intro shares tbss tcb; rfl
  | cons trade rest ih =>
    intro shares tbss tcb
    by_cases hd : trade.date ≤ d
    · cases htype : trade.type with
      | sell =>
        simp only [checkedProcessTrades, processTrades, if_pos hd,
          checkedTradeSpyChange_eq, htype, Option.some_bind]
        exact ih _ _ _
      | buy =>
        simp only [checkedProcessTrades, processTrades, if_pos hd,
          checkedTradeSpyChange_eq, htype, Option.some_bind]
        exact ih _ _ _
    · simp only [checkedProcessTrades, processTrades, if_neg hd]

theorem checkedBuildDepositShares_eq (spy : List StockPrice) :
    ∀ (deps : List CashFlow) (acc : JsMap ℕ ℚ × ℚ),
      checkedBuildDepositShares spy deps acc = some (buildDepositShares spy deps acc) := by
  intro deps
  induction deps with
  | nil => intro acc; rfl
  | cons dep rest ih =>
    intro acc
    obtain ⟨m, cumulative⟩ := acc
    cases hp : getPriceOnOrBefore spy dep.date with
    | none =>
      simp only [checkedBuildDepositShares, buildDepositShares, hp]
      exact ih _
    | some p =>
      by_cases hz : p = 0
      · simp only [checkedBuildDepositShares, buildDepositShares, hp, if_pos hz]
        exact ih _
      · simp only [checkedBuildDepositShares, buildDepositShares, hp, if_neg hz,
          checkedDiv, Option.some_bind]
        exact ih _

theorem checkedDiv_pair (X Y cB : ℚ) (R : List PortfolioDataPoint)
    (f : ℚ → ℚ → PortfolioDataPoint) :
    (if 0 < cB then
        (checkedDiv X cB).bind
          (fun pr => (checkedDiv Y cB).map (fun cr => f pr cr :: R))
      else some R)
      = some (if 0 < cB then f (X / cB) (Y / cB) :: R else R) := by
  by_cases hc : 0 < cB
  · rw [if_pos hc, if_pos hc, checkedDiv_of_pos X cB hc, checkedDiv_of_pos Y cB hc]
    rfl
  · rw [if_neg hc, if_neg hc]

theorem checkedTsLoop_eq (env : TSEnv) :
    ∀ (l : List StockPrice) (s : TSState),
      checkedTsLoop env l s = some (tsLoop env l s) := by
  intro l
  induction l with
  | nil => intro s; rfl
  | cons sp rest ih =>
    intro s
    simp only [checkedTsLoop, tsLoop, checkedProcessTrades_eq, Option.some_bind, ih]
    exact checkedDiv_pair _ _ _ _ _

theorem checkedCalculatePortfolioTimeSeries_eq (trades : List Trade)
    (stockPrices : JsMap String (List StockPrice)) (spyPrices : List StockPrice)
    (cashFlows : List CashFlow) (splits : JsMap String (List StockSplit)) :
    checkedCalculatePortfolioTimeSeries trades stockPrices spyPrices cashFlows splits
      = some (calculatePortfolioTimeSeries trades stockPrices spyPrices cashFlows splits) := by
  unfold checkedCalculatePortfolioTimeSeries calculatePortfolioTimeSeries
  by_cases hedge : trades = [] ∨ spyPrices = []
  · rw [if_pos hedge, if_pos hedge]
  · rw [if_neg hedge, if_neg hedge]
    simp only [checkedBuildDepositShares_eq, Option.some_bind, checkedTsLoop_eq]

theorem foldlM_eq_foldl {α β : Type} (stepC : β → α → Option β) (step : β → α → β)
    (hstep : ∀ b a, stepC b a = some (step b a)) :
    ∀ (l : List α) (init : β), l.foldlM stepC init = some (l.foldl step init) := by
  intro l
  induction l with
  | nil => intro init; rfl
  | cons x xs ih =>
    intro init
    rw [List.foldlM_cons, hstep, List.foldl_cons]
    show xs.foldlM stepC (step init x) = _
    exact ih _

theorem checkedAggregateTrades_eq (spy : List StockPrice) (trades : List Trade) :
    checkedAggregateTrades spy trades = some (aggregateTrades spy trades) := by
  unfold checkedAggregateTrades aggregateTrades
  refine foldlM_eq_foldl _ _ ?_ trades []
  intro agg tr
  simp only [aggApply]
  cases hp : getPriceOnDate spy tr.date with
  | none =>
    simp only [hp]
    rfl
  | some p =>
    by_cases hz : p = 0
    · simp only [hp, if_pos hz]
      rfl
    · simp only [hp, if_neg hz, checkedDiv]
      rfl

theorem checkedBreakdownRows_eq (stockPrices : JsMap String (List StockPrice))
    (currentSpyPrice : ℚ) (aggregated : JsMap String AggEntry) :
    checkedBreakdownRows stockPrices currentSpyPrice aggregated
      = some (breakdownRows stockPrices currentSpyPrice aggregated) := by
  unfold checkedBreakdownRows breakdownRows
  refine foldlM_eq_foldl _ _ ?_ aggregated []
  intro bd p
  simp only [rowStep]
  by_cases h1 : p.2.totalShares ≤ 0
  · simp only [if_pos h1]
  · simp only [if_neg h1]
    cases hm : mapGet? stockPrices p.1 with
    | none => rfl
    | some tickerPrices =>
      by_cases h2 : tickerPrices = []
      · simp only [if_pos h2]
      · have hpos : 0 < p.2.totalShares := lt_of_not_ge h1
        simp only [if_neg h2, if_pos hpos, checkedDiv_of_pos _ _ hpos,
          Option.map_some']

theorem checkedCalculateStockBreakdown_eq (trades : List Trade)
    (stockPrices : JsMap String (List StockPrice)) (spyPrices : List StockPrice) :
    checkedCalculateStockBreakdown trades stockPrices spyPrices
      = some (calculateStockBreakdown trades stockPrices spyPrices) := by
  unfold checkedCalculateStockBreakdown calculateStockBreakdown
  simp only [checkedAggregateTrades_eq, Option.some_bind, checkedBreakdownRows_eq,
    Option.map_some']

theorem checkedCalculateSummary_eq (breakdown : List StockBreakdownData)
    (cashFlows : List CashFlow) (trades : List Trade) :
    checkedCalculateSummary breakdown cashFlows trades
      = some (calculateSummary breakdown cashFlows trades) := by
  cases breakdown with
  | nil => rfl
  | cons first rest =>
    simp only [checkedCalculateSummary, calculateSummary]
    split_ifs with hc
    · simp only [checkedDiv_of_pos _ _ hc, Option.map_some', Option.some_bind]
    · simp only [Option.map_some', Option.some_bind]

/-- C8: the three calculation-core entry points are total and every division
whose divisor can be zero is guarded: each `Option`-monad mirror, in which
every division by a non-constant quantity fails on a zero divisor
(`checkedDiv`), returns `some` of the plain function's result on every
input, so no emitted field is ever produced by a division by zero (the JS
`NaN`/`Infinity` sources). -/
theorem no_unguarded_divisions (trades : List Trade)
    (stockPrices : JsMap String (List StockPrice)) (spyPrices : List StockPrice)
    (cashFlows : List CashFlow) (splits : JsMap String (List StockSplit))
    (breakdown : List StockBreakdownData) :
    checkedCalculatePortfolioTimeSeries trades stockPrices spyPrices cashFlows splits
        = some (calculatePortfolioTimeSeries trades stockPrices spyPrices cashFlows splits)
    ∧ checkedCalculateStockBreakdown trades stockPrices spyPrices
        = some (calculateStockBreakdown trades stockPrices spyPrices)
    ∧ checkedCalculateSummary breakdown cashFlows trades
        = some (calculateSummary breakdown cashFlows trades) :=
  ⟨checkedCalculatePortfolioTimeSeries_eq trades stockPrices spyPrices cashFlows splits,
   checkedCalculateStockBreakdown_eq trades stockPrices spyPrices,
   checkedCalculateSummary_eq breakdown cashFlows trades⟩

end Cf
